import Mathlib

set_option maxRecDepth 100000

/-!
Verification of the parasailors alignment wrapper library.

The repository under verification wraps the parasail pairwise-alignment
kernels.  The Rust sources in scope define the substitution-matrix lifecycle
(matrix.rs) and the alignment entry points together with their result
bookkeeping (align.rs); the dynamic-programming kernels themselves live in
the external parasail C library and are not part of the sources.  Following
the design document, the kernels are modelled here by an explicit
affine-gap (Gotoh three-track) dynamic program over a
(query length + 1) x (reference length + 1) grid, parameterised by the
boundary policy (which edges are gap-free), exactly as the design document
prescribes.  The boundary policy used for each entry point is fixed by the
repository's own doc-tests and unit tests, which pin concrete scores and
end coordinates for every mode.

Scores are integers extended with a bottom element (WithBot Int) standing
for minus infinity, the value of an unreachable dynamic-programming state.
-/

namespace PSail

/-- One scoring track of a dynamic-programming cell: the track value plus the
statistics accumulators carried alongside it (exact matches, positive-scoring
columns, alignment length), as maintained by the stats kernels. -/
structure Trk where
  v : WithBot Int
  mat : Nat
  sim : Nat
  len : Nat
deriving DecidableEq, Repr

/-- Track holding no alignment (minus-infinity value). -/
def botTrk : Trk := ⟨⊥, 0, 0, 0⟩

/-- Track holding the empty alignment of score zero. -/
def zeroTrk : Trk := ⟨((0 : Int) : WithBot Int), 0, 0, 0⟩

/-- One cell of the dynamic-programming grid, with the three Gotoh tracks:
tm ends in a substitution column, tx ends in a gap in the reference row
(query character consumed alone), ty ends in a gap in the query row
(reference character consumed alone). -/
structure SCell where
  tm : Trk
  tx : Trk
  ty : Trk
deriving DecidableEq, Repr

/-- Cell all of whose tracks are unreachable. -/
def botCell : SCell := ⟨botTrk, botTrk, botTrk⟩

/-- The best track of a cell, ties resolved in favour of the substitution
track, then the reference-gap track. -/
def bestTrk (c : SCell) : Trk :=
  let a := if c.tm.v < c.tx.v then c.tx else c.tm
  if a.v < c.ty.v then c.ty else a

/-- Configuration of one alignment mode: substitution function, affine gap
costs, and the boundary policy (which leading edges are gap-free, and whether
cell values are floored at zero as in local alignment). -/
structure Cfg where
  subf : Char → Char → Int
  openC : Int
  extC : Int
  topFree : Bool
  leftFree : Bool
  floor0 : Bool

/-- Boundary track for a charged leading gap of k characters:
cost open + (k-1) * extend, zero statistics, length k. -/
def gapTrk (cfg : Cfg) (k : Nat) : Trk :=
  ⟨((-(cfg.openC + ((k : Int) - 1) * cfg.extC) : Int) : WithBot Int), 0, 0, k⟩

/-- Cell (0, j) for j >= 1: free (score zero) or charged leading gap in the
query row, depending on the boundary policy. -/
def topCell (cfg : Cfg) (j : Nat) : SCell :=
  if cfg.topFree then ⟨zeroTrk, botTrk, botTrk⟩ else ⟨botTrk, botTrk, gapTrk cfg j⟩

/-- Cell (i, 0) for i >= 1: free or charged leading gap in the reference row. -/
def leftCell (cfg : Cfg) (i : Nat) : SCell :=
  if cfg.leftFree then ⟨zeroTrk, botTrk, botTrk⟩ else ⟨botTrk, gapTrk cfg i, botTrk⟩

/-- Cell (0, 0): the empty alignment. -/
def cornerCell : SCell := ⟨zeroTrk, botTrk, botTrk⟩

/-- The shared interior recurrence of all modes (design document section 4.3):
the substitution track extends the best track of the diagonal neighbour, the
gap tracks open from the substitution track of the adjacent neighbour at the
open cost or extend themselves at the extend cost.  In local mode the
substitution track restarts at zero instead of going negative.  Statistics
accumulators are carried along the chosen predecessor track. -/
def mkCell (cfg : Cfg) (qc rc : Char) (diag up left : SCell) : SCell :=
  let s := cfg.subf qc rc
  let bd := bestTrk diag
  let mv := bd.v + ((s : Int) : WithBot Int)
  let tm :=
    if cfg.floor0 ∧ mv < ((0 : Int) : WithBot Int) then zeroTrk
    else ⟨mv, bd.mat + (if qc = rc then 1 else 0),
              bd.sim + (if 0 < s then 1 else 0), bd.len + 1⟩
  let xa : Trk := ⟨up.tm.v + ((-cfg.openC : Int) : WithBot Int), up.tm.mat, up.tm.sim, up.tm.len + 1⟩
  let xb : Trk := ⟨up.tx.v + ((-cfg.extC : Int) : WithBot Int), up.tx.mat, up.tx.sim, up.tx.len + 1⟩
  let ya : Trk := ⟨left.tm.v + ((-cfg.openC : Int) : WithBot Int), left.tm.mat, left.tm.sim, left.tm.len + 1⟩
  let yb : Trk := ⟨left.ty.v + ((-cfg.extC : Int) : WithBot Int), left.ty.mat, left.ty.sim, left.ty.len + 1⟩
  ⟨tm, if xa.v < xb.v then xb else xa, if ya.v < yb.v then yb else ya⟩

/-- Build the interior of one grid row from the previous row, walking the
reference characters; cur is the cell immediately to the left. -/
def buildRow (cfg : Cfg) (qc : Char) : List Char → List SCell → SCell → List SCell
  | rc :: rs, d :: u :: rest, cur =>
      let c := mkCell cfg qc rc d u cur
      c :: buildRow cfg qc rs (u :: rest) c
  | _, _, _ => []

/-- Row i of the grid (i >= 1), with its boundary cell at the head. -/
def rowFor (cfg : Cfg) (qc : Char) (refs : List Char) (prev : List SCell) (i : Nat) : List SCell :=
  leftCell cfg i :: buildRow cfg qc refs prev (leftCell cfg i)

/-- Rows 1.. of the grid, built in order along the query characters. -/
def tableRows (cfg : Cfg) (refs : List Char) : List Char → List SCell → Nat → List (List SCell)
  | [], _, _ => []
  | qc :: qs, prev, i =>
      let row := rowFor cfg qc refs prev i
      row :: tableRows cfg refs qs row (i + 1)

/-- Row 0 of the grid, following the boundary policy. -/
def row0 (cfg : Cfg) (m : Nat) : List SCell :=
  cornerCell :: (List.range m).map (fun j => topCell cfg (j + 1))

/-- The full (|q|+1) x (|r|+1) dynamic-programming grid. -/
def table (cfg : Cfg) (q r : List Char) : List (List SCell) :=
  row0 cfg r.length :: tableRows cfg r q (row0 cfg r.length) 1

/-- Cell (i, j) of a grid, the unreachable cell when out of range. -/
def getCellD (T : List (List SCell)) (i j : Nat) : SCell :=
  (T.getD i []).getD j botCell

/-- Elements of a list paired with their positions, counted from k. -/
def idxFrom {α : Type} : Nat → List α → List (Nat × α)
  | _, [] => []
  | k, a :: as => (k, a) :: idxFrom (k + 1) as

/-- A candidate ending cell of an alignment: the one-based end coordinates in
query and reference, plus the best track of the cell. -/
structure EndPt where
  qe : Nat
  re : Nat
  trk : Trk
deriving DecidableEq, Repr

/-- One comparison step of the optimum scan: keep the accumulator unless the
new candidate is strictly better. -/
def pickBest (acc b : EndPt) : EndPt :=
  if acc.trk.v < b.trk.v then b else acc

/-- Scan a candidate list for its maximum value, earlier candidates winning
ties, as the kernels scan the grid for the optimum. -/
def scanBest : List EndPt → EndPt
  | [] => ⟨0, 0, botTrk⟩
  | a :: as => as.foldl pickBest a

/-- Last row of a grid. -/
def lastRowOf (T : List (List SCell)) : List SCell := T.getLastD []

/-- Last column of a grid, boundary row excluded. -/
def lastColOf (T : List (List SCell)) : List SCell :=
  T.tail.map (fun row => row.getLastD botCell)

/-- Ending candidates along one row i: one per reference position j >= 1. -/
def rowEnds (i : Nat) (row : List SCell) : List EndPt :=
  (idxFrom 1 row.tail).map (fun p => ⟨i, p.1, bestTrk p.2⟩)

/-- Ending candidates along the last column: one per query position i >= 1. -/
def colEnds (m : Nat) (col : List SCell) : List EndPt :=
  (idxFrom 1 col).map (fun p => ⟨p.1, m, bestTrk p.2⟩)

/-- Ending candidates over the whole interior of the grid, row-major. -/
def interiorEnds (T : List (List SCell)) : List EndPt :=
  ((idxFrom 1 T.tail).map (fun p => rowEnds p.1 p.2)).flatten

/-- Global mode: both leading edges charged, answer at the bottom-right
corner only. -/
def globalCfg (subf : Char → Char → Int) (o e : Int) : Cfg := ⟨subf, o, e, false, false, false⟩

/-- Semi-global mode of the sg entry points: both leading edges free, answer
over last row and last column; this is the boundary policy the repository's
own test test_semiglobal_stats pins down. -/
def sgCfg (subf : Char → Char → Int) (o e : Int) : Cfg := ⟨subf, o, e, true, true, false⟩

/-- Semi-global qx mode: gaps at the edges of the query row free (top edge
free, answer over the last row), reference-row edge gaps charged. -/
def qxCfg (subf : Char → Char → Int) (o e : Int) : Cfg := ⟨subf, o, e, true, false, false⟩

/-- Semi-global dx mode: gaps at the edges of the reference row free (left
edge free, answer over the last column), query-row edge gaps charged. -/
def dxCfg (subf : Char → Char → Int) (o e : Int) : Cfg := ⟨subf, o, e, false, true, false⟩

/-- Local mode: free edges, every cell floored at zero, answer anywhere. -/
def localCfg (subf : Char → Char → Int) (o e : Int) : Cfg := ⟨subf, o, e, true, true, true⟩

/-- Modelled from the spec: statistics bundle of align.rs (AlignmentStats),
with the score widened to i64 and the one-based end coordinates. -/
structure AlignmentStats where
  score : Int
  num_matches : Nat
  num_positive_subs : Nat
  align_length : Nat
  query_end : Nat
  ref_end : Nat
deriving DecidableEq, Repr

/-- End bookkeeping of a traceback result (TracebackResults of align.rs,
trace strings aside): score and the one-based end coordinates computed as
end_query + 1 and end_ref + 1. -/
structure TracebackEnds where
  score : Int
  query_end : Nat
  ref_end : Nat
deriving DecidableEq, Repr

/-- Modelled from the spec: the score of parasail_nw_striped_profile_sat as
called by global_alignment_score of align.rs; global boundary policy, answer
at the bottom-right corner. -/
def global_alignment_score (q r : List Char) (o e : Int) (subf : Char → Char → Int) : WithBot Int :=
  (bestTrk (getCellD (table (globalCfg subf o e) q r) q.length r.length)).v

/-- Candidate ending cells of the sg kernels: the last row scanned first,
then the last column, matching the tie the repository test pins. -/
def sgCands (q r : List Char) (o e : Int) (subf : Char → Char → Int) : List EndPt :=
  rowEnds q.length (lastRowOf (table (sgCfg subf o e) q r)) ++
    colEnds r.length (lastColOf (table (sgCfg subf o e) q r))

/-- Optimal ending cell of the sg kernels. -/
def sgScan (q r : List Char) (o e : Int) (subf : Char → Char → Int) : EndPt :=
  scanBest (sgCands q r o e subf)

/-- Modelled from the spec: the score of parasail_sg_striped_profile_sat as
called by semi_global_alignment_score of align.rs. -/
def semi_global_alignment_score (q r : List Char) (o e : Int) (subf : Char → Char → Int) : WithBot Int :=
  (sgScan q r o e subf).trk.v

/-- Candidate ending cells of the sg_qx kernels: the last row of the
query-edge-free grid. -/
def qxCands (q r : List Char) (o e : Int) (subf : Char → Char → Int) : List EndPt :=
  rowEnds q.length (lastRowOf (table (qxCfg subf o e) q r))

/-- Optimal ending cell of the sg_qx kernels. -/
def qxScan (q r : List Char) (o e : Int) (subf : Char → Char → Int) : EndPt :=
  scanBest (qxCands q r o e subf)

/-- Modelled from the spec: the score of parasail_sg_qx_striped_profile_sat
as called by semi_global_qx_alignment_score of align.rs. -/
def semi_global_qx_alignment_score (q r : List Char) (o e : Int) (subf : Char → Char → Int) : WithBot Int :=
  (qxScan q r o e subf).trk.v

/-- Candidate ending cells of the sg_dx kernels: the last column of the
reference-edge-free grid. -/
def dxCands (q r : List Char) (o e : Int) (subf : Char → Char → Int) : List EndPt :=
  colEnds r.length (lastColOf (table (dxCfg subf o e) q r))

/-- Optimal ending cell of the sg_dx kernels. -/
def dxScan (q r : List Char) (o e : Int) (subf : Char → Char → Int) : EndPt :=
  scanBest (dxCands q r o e subf)

/-- Candidate ending cells of the sw kernels: the whole grid interior. -/
def swCands (q r : List Char) (o e : Int) (subf : Char → Char → Int) : List EndPt :=
  interiorEnds (table (localCfg subf o e) q r)

/-- Optimal ending cell of the sw kernels. -/
def swScan (q r : List Char) (o e : Int) (subf : Char → Char → Int) : EndPt :=
  scanBest (swCands q r o e subf)

/-- Modelled from the spec: the score of parasail_sw_striped_profile_sat as
called by local_alignment_score of align.rs. -/
def local_alignment_score (q r : List Char) (o e : Int) (subf : Char → Char → Int) : WithBot Int :=
  (swScan q r o e subf).trk.v

/-- Statistics bundle built from an optimal ending cell, as
semi_global_alignment_stats and its siblings in align.rs populate
AlignmentStats from the parasail result. -/
def statsOf (p : EndPt) : AlignmentStats :=
  ⟨p.trk.v.unbot' 0, p.trk.mat, p.trk.sim, p.trk.len, p.qe, p.re⟩

/-- Modelled from the spec: semi_global_alignment_stats of align.rs over the
parasail_sg_stats_striped_sat kernel. -/
def semi_global_alignment_stats (q r : List Char) (o e : Int) (subf : Char → Char → Int) : AlignmentStats :=
  statsOf (sgScan q r o e subf)

/-- Modelled from the spec: semi_global_qx_alignment_stats of align.rs over
the parasail_sg_qx_stats_striped_sat kernel. -/
def semi_global_qx_alignment_stats (q r : List Char) (o e : Int) (subf : Char → Char → Int) : AlignmentStats :=
  statsOf (qxScan q r o e subf)

/-- Modelled from the spec: local_alignment_stats of align.rs over the
parasail_sw_stats_striped_sat kernel. -/
def local_alignment_stats (q r : List Char) (o e : Int) (subf : Char → Char → Int) : AlignmentStats :=
  statsOf (swScan q r o e subf)

/-- End bookkeeping of a traceback result of an optimal ending cell. -/
def tracebackEndsOf (p : EndPt) : TracebackEnds :=
  ⟨p.trk.v.unbot' 0, p.qe, p.re⟩

/-- Modelled from the spec: the score and end coordinates returned by
semi_global_traceback of align.rs (parasail_sg_trace_striped_sat kernel). -/
def semi_global_traceback_ends (q r : List Char) (o e : Int) (subf : Char → Char → Int) : TracebackEnds :=
  tracebackEndsOf (sgScan q r o e subf)

/-- Modelled from the spec: the score and end coordinates returned by
semi_global_dx_traceback of align.rs (parasail_sg_dx_trace_striped_sat
kernel). -/
def semi_global_dx_traceback_ends (q r : List Char) (o e : Int) (subf : Char → Char → Int) : TracebackEnds :=
  tracebackEndsOf (dxScan q r o e subf)

/-- The alphabet the parametric matrices of matrix.rs are built over. -/
def alphabet : List Char := "ARNDCQEGHILKMFPSTWYVBZX".toList

/-- Index of a character in the parametric alphabet; characters outside the
alphabet share the one-past-the-end index, as the parasail mapper sends every
unlisted byte to the final matrix row. -/
def alphaIdx (c : Char) : Nat := alphabet.indexOf c

/-- Modelled from the spec: the substitution score of a matrix built by
parasail_matrix_create over the fixed alphabet with the given match and
mismatch scores, as Matrix::new does for the parametric variants. -/
def matrix_create (matchS mismatchS : Int) (a b : Char) : Int :=
  if alphaIdx a = alphaIdx b then matchS else mismatchS

/-- The MatrixType::Identity scoring function: match 1, mismatch 0. -/
def identityScore : Char → Char → Int := matrix_create 1 0

/-- The MatrixType::IdentityWithPenalty scoring function: match 1,
mismatch -1. -/
def identityWithPenaltyScore : Char → Char → Int := matrix_create 1 (-1)

/-- Modelled from the spec: the score-level semi-global procedure exactly as
the design document's semi-global paragraph describes it: leading gaps before
the query are free (row 0 free), query-sequence edge gaps are charged as in
global mode (column 0 charged), and the answer is the maximum cell_best value
across the last row (query fully consumed, reference may end anywhere). -/
def semiGlobalClaimDescribedScore (q r : List Char) (o e : Int) (subf : Char → Char → Int) :
    WithBot Int :=
  ((lastRowOf (table (qxCfg subf o e) q r)).tail.map (fun c => (bestTrk c).v)).foldr max ⊥

/-- The traceback glyph align.rs passes as match_char in
semi_global_traceback (line 446). -/
def sgMatchChar : Char := '|'

/-- The traceback glyph align.rs passes as positive_mismatch_char in
semi_global_traceback (line 447). -/
def sgPositiveMismatchChar : Char := '|'

/-- The traceback glyph align.rs passes as negative_mismatch_char in
semi_global_traceback (line 448). -/
def sgNegativeMismatchChar : Char := ':'

/-- The traceback glyph align.rs passes as match_char in
semi_global_dx_traceback (line 373). -/
def dxMatchChar : Char := '|'

/-- The traceback glyph align.rs passes as positive_mismatch_char in
semi_global_dx_traceback (line 374). -/
def dxPositiveMismatchChar : Char := '|'

/-- The traceback glyph align.rs passes as negative_mismatch_char in
semi_global_dx_traceback (line 375). -/
def dxNegativeMismatchChar : Char := ':'

/-- Modelled from the spec: the per-column comparison glyph chosen by
parasail_result_get_traceback (not part of src/) from the three glyph
arguments: the match glyph on an exact character match, the positive glyph on
a positive-scoring substitution, the negative glyph otherwise. -/
def compGlyph (subf : Char → Char → Int) (mc pc nc : Char) (a b : Char) : Char :=
  if a = b then mc else if 0 < subf a b then pc else nc

/-- Modelled from the spec: the comparison row of a traceback, one glyph per
aligned substitution column. -/
def comp_trace_row (subf : Char → Char → Int) (mc pc nc : Char)
    (cols : List (Char × Char)) : List Char :=
  cols.map (fun p => compGlyph subf mc pc nc p.1 p.2)

/-- The matrix variants of matrix.rs (MatrixType). -/
inductive MatrixType where
  | Identity
  | IdentityWithPenalty
  | Blosum100
  | Blosum30
  | Blosum35
  | Blosum40
  | Blosum45
  | Blosum50
  | Blosum55
  | Blosum60
  | Blosum62
  | Blosum65
  | Blosum70
  | Blosum75
  | Blosum80
  | Blosum85
  | Blosum90
  | Pam10
  | Pam100
  | Pam110
  | Pam120
  | Pam130
  | Pam140
  | Pam150
  | Pam160
  | Pam170
  | Pam180
  | Pam190
  | Pam20
  | Pam200
  | Pam210
  | Pam220
  | Pam230
  | Pam240
  | Pam250
  | Pam260
  | Pam270
  | Pam280
  | Pam290
  | Pam30
  | Pam300
  | Pam310
  | Pam320
  | Pam330
  | Pam340
  | Pam350
  | Pam360
  | Pam370
  | Pam380
  | Pam390
  | Pam40
  | Pam400
  | Pam410
  | Pam420
  | Pam430
  | Pam440
  | Pam450
  | Pam460
  | Pam470
  | Pam480
  | Pam490
  | Pam50
  | Pam500
  | Pam60
  | Pam70
  | Pam80
  | Pam90
deriving DecidableEq, Repr

/-- How Matrix::new obtains the backing store for each variant. -/
inductive MatrixOrigin where
  | createdParametric
  | staticLookup
deriving DecidableEq, Repr

/-- The construction path Matrix::new takes: the Identity and
IdentityWithPenalty arms call parasail_matrix_create, every other arm calls
parasail_matrix_lookup on a static name. -/
def newMatrixOrigin : MatrixType → MatrixOrigin
  | MatrixType.Identity => MatrixOrigin.createdParametric
  | MatrixType.IdentityWithPenalty => MatrixOrigin.createdParametric
  | _ => MatrixOrigin.staticLookup

/-- How many times the Drop implementation of Matrix calls
parasail_matrix_free: one conditional free for Identity and one for
IdentityWithPenalty, mirroring the two if-let blocks of matrix.rs. -/
def dropFreeCount (t : MatrixType) : Nat :=
  (if t = MatrixType.Identity then 1 else 0) +
    (if t = MatrixType.IdentityWithPenalty then 1 else 0)

/-- Invariant of the statistics accumulators: on every track the exact-match
count and the positive-substitution count agree. -/
def matSim (c : SCell) : Prop :=
  c.tm.mat = c.tm.sim ∧ c.tx.mat = c.tx.sim ∧ c.ty.mat = c.ty.sim

/-- The 50-character query of the doc-tests of align.rs. -/
def seqA50 : List Char := "AAAAAAAAAACCCCCCCCCCGGGGGGGGGGTTTTTTTTTTTNNNNNNNNN".toList

/-- The 52-character reference with the two-substitution TTTTTCCTTTTTT
segment from the doc-tests of align.rs. -/
def seqB52 : List Char := "AAAAAAAAAACCCCCCCCCCGGGGGGGGGGTTTTTCCTTTTTTNNNNNNNNN".toList

/-- The 17-character query of test_semiglobal_stats. -/
def seqQ17 : List Char := "AAAACCCCCCCCCCGGG".toList

/-- First query of the rust-bio-derived cases of test_semiglobal_stats. -/
def seqX9 : List Char := "ACCGTGGAT".toList

/-- First reference of the rust-bio-derived cases of test_semiglobal_stats. -/
def seqY13 : List Char := "AAAAACCGTTGAT".toList

/-- Second query of the rust-bio-derived cases of test_semiglobal_stats. -/
def seqX6 : List Char := "CCGGCA".toList

/-- Second reference of the rust-bio-derived cases of test_semiglobal_stats. -/
def seqY11 : List Char := "ACCGTTGACGC".toList

/-! Basic lemmas about the best-track selection and the optimum scan. -/

theorem bestTrk_v (c : SCell) : (bestTrk c).v = max (max c.tm.v c.tx.v) c.ty.v := by
  unfold bestTrk
  rcases lt_or_le c.tm.v c.tx.v with h1 | h1
  · rw [if_pos h1, max_eq_right (le_of_lt h1)]
    rcases lt_or_le c.tx.v c.ty.v with h2 | h2
    · rw [if_pos h2, max_eq_right (le_of_lt h2)]
    · rw [if_neg (not_lt.mpr h2), max_eq_left h2]
  · rw [if_neg (not_lt.mpr h1), max_eq_left h1]
    rcases lt_or_le c.tm.v c.ty.v with h2 | h2
    · rw [if_pos h2, max_eq_right (le_of_lt h2)]
    · rw [if_neg (not_lt.mpr h2), max_eq_left h2]

theorem bestTrk_cases (c : SCell) : bestTrk c = c.tm ∨ bestTrk c = c.tx ∨ bestTrk c = c.ty := by
  unfold bestTrk
  rcases lt_or_le c.tm.v c.tx.v with h1 | h1
  · rw [if_pos h1]
    dsimp only
    split
    · exact Or.inr (Or.inr rfl)
    · exact Or.inr (Or.inl rfl)
  · rw [if_neg (not_lt.mpr h1)]
    dsimp only
    split
    · exact Or.inr (Or.inr rfl)
    · exact Or.inl rfl

theorem bestTrk_eq_tm (c : SCell) (hx : c.tx.v ≤ c.tm.v) (hy : c.ty.v ≤ c.tm.v) :
    bestTrk c = c.tm := by
  unfold bestTrk
  rw [if_neg (not_lt.mpr hx), if_neg (not_lt.mpr hy)]

theorem tm_v_le_bestTrk (c : SCell) : c.tm.v ≤ (bestTrk c).v := by
  rw [bestTrk_v]; exact le_trans (le_max_left _ _) (le_max_left _ _)

theorem tx_v_le_bestTrk (c : SCell) : c.tx.v ≤ (bestTrk c).v := by
  rw [bestTrk_v]; exact le_trans (le_max_right _ _) (le_max_left _ _)

theorem ty_v_le_bestTrk (c : SCell) : c.ty.v ≤ (bestTrk c).v := by
  rw [bestTrk_v]; exact le_max_right _ _

theorem bestTrk_v_le (c : SCell) (b : WithBot Int) (h1 : c.tm.v ≤ b) (h2 : c.tx.v ≤ b)
    (h3 : c.ty.v ≤ b) : (bestTrk c).v ≤ b := by
  rw [bestTrk_v]; exact max_le (max_le h1 h2) h3

theorem pickBest_v (a b : EndPt) : (pickBest a b).trk.v = max a.trk.v b.trk.v := by
  unfold pickBest
  rcases lt_or_le a.trk.v b.trk.v with h | h
  · rw [if_pos h, max_eq_right (le_of_lt h)]
  · rw [if_neg (not_lt.mpr h), max_eq_left h]

theorem pickBest_cases (a b : EndPt) : pickBest a b = a ∨ pickBest a b = b := by
  unfold pickBest; split <;> simp

theorem foldl_pickBest_mem : ∀ (as : List EndPt) (a : EndPt), as.foldl pickBest a ∈ a :: as := by
  intro as
  induction as with
  | nil => intro a; simp [List.foldl]
  | cons b bs ih =>
      intro a
      have h := ih (pickBest a b)
      rcases pickBest_cases a b with hc | hc <;> rw [List.foldl_cons] <;>
        rcases List.mem_cons.mp h with h' | h' <;> simp [h', hc] at * <;> simp [h', hc]

theorem foldr_max_swap : ∀ (l : List (WithBot Int)) (u v : WithBot Int),
    l.foldr max (max u v) = max v (l.foldr max u) := by
  intro l
  induction l with
  | nil => intro u v; simp [max_comm]
  | cons w ws ihw =>
      intro u v
      simp only [List.foldr_cons, ihw]
      rw [max_left_comm]

theorem foldl_pickBest_v : ∀ (as : List EndPt) (a : EndPt),
    (as.foldl pickBest a).trk.v = (as.map (fun p => p.trk.v)).foldr max a.trk.v := by
  intro as
  induction as with
  | nil => intro a; rfl
  | cons b bs ih =>
      intro a
      rw [List.foldl_cons, ih (pickBest a b), List.map_cons, List.foldr_cons]
      rw [pickBest_v, foldr_max_swap]

theorem le_foldr_max_init : ∀ (l : List (WithBot Int)) (u : WithBot Int), u ≤ l.foldr max u := by
  intro l
  induction l with
  | nil => intro u; exact le_refl u
  | cons w ws ih => intro u; exact le_trans (ih u) (le_max_right _ _)

theorem le_foldr_max_mem : ∀ (l : List (WithBot Int)) (u x : WithBot Int),
    x ∈ l → x ≤ l.foldr max u := by
  intro l
  induction l with
  | nil => intro u x hx; cases hx
  | cons w ws ih =>
      intro u x hx
      rcases List.mem_cons.mp hx with h | h
      · subst h; exact le_max_left _ _
      · exact le_trans (ih u x h) (le_max_right _ _)

theorem foldr_max_le : ∀ (l : List (WithBot Int)) (u b : WithBot Int),
    u ≤ b → (∀ x ∈ l, x ≤ b) → l.foldr max u ≤ b := by
  intro l
  induction l with
  | nil => intro u b hu _; exact hu
  | cons w ws ih =>
      intro u b hu hall
      simp only [List.foldr_cons]
      exact max_le (hall w (List.mem_cons_self w ws)) (ih u b hu fun x hx => hall x (List.mem_cons_of_mem w hx))

theorem scanBest_mem (l : List EndPt) (h : l ≠ []) : scanBest l ∈ l := by
  cases l with
  | nil => exact absurd rfl h
  | cons a as => exact foldl_pickBest_mem as a

theorem le_scanBest (l : List EndPt) (p : EndPt) (hp : p ∈ l) : p.trk.v ≤ (scanBest l).trk.v := by
  cases l with
  | nil => cases hp
  | cons a as =>
      show p.trk.v ≤ (as.foldl pickBest a).trk.v
      rw [foldl_pickBest_v]
      rcases List.mem_cons.mp hp with h | h
      · subst h; exact le_foldr_max_init _ _
      · exact le_foldr_max_mem _ _ _ (List.mem_map_of_mem (fun p => p.trk.v) h)

theorem foldr_max_bot (l : List (WithBot Int)) (u : WithBot Int) :
    l.foldr max u = max u (l.foldr max ⊥) := by
  rw [← foldr_max_swap l ⊥ u, max_eq_right bot_le]

theorem scanBest_v (l : List EndPt) :
    (scanBest l).trk.v = (l.map (fun p => p.trk.v)).foldr max ⊥ := by
  cases l with
  | nil => rfl
  | cons a as =>
      show (as.foldl pickBest a).trk.v = _
      rw [foldl_pickBest_v]
      simp only [List.map_cons, List.foldr_cons]
      exact foldr_max_bot _ _

/-! Lemmas about position-indexed lists. -/

theorem idxFrom_getElem? {α : Type} :
    ∀ (l : List α) (k t : Nat), (idxFrom k l)[t]? = (l[t]?).map (fun a => (k + t, a)) := by
  intro l
  induction l with
  | nil => intro k t; simp [idxFrom]
  | cons a as ih =>
      intro k t
      cases t with
      | zero => simp [idxFrom]
      | succ t' =>
          simp only [idxFrom, List.getElem?_cons_succ, ih (k + 1) t']
          have : k + 1 + t' = k + (t' + 1) := by omega
          rw [this]

theorem idxFrom_length {α : Type} : ∀ (l : List α) (k : Nat), (idxFrom k l).length = l.length := by
  intro l
  induction l with
  | nil => intro k; rfl
  | cons a as ih => intro k; simp [idxFrom, ih]

/-! Helper conversions between getD and getElem?. -/

theorem getD_of_getElem? {α : Type} (l : List α) (i : Nat) (d a : α) (h : l[i]? = some a) :
    l.getD i d = a := by
  rw [List.getD_eq_getElem?_getD, h]; rfl

theorem getElem?_eq_some_getD {α : Type} (l : List α) (j : Nat) (d : α) (h : j < l.length) :
    l[j]? = some (l.getD j d) := by
  rw [List.getElem?_eq_getElem h, List.getD_eq_getElem?_getD, List.getElem?_eq_getElem h]
  rfl

/-! Shape lemmas: the grid has one row per query prefix and one cell per
reference prefix in every row. -/

theorem buildRow_length (cfg : Cfg) (qc : Char) :
    ∀ (refs : List Char) (prev : List SCell) (cur : SCell),
      prev.length = refs.length + 1 → (buildRow cfg qc refs prev cur).length = refs.length := by
  intro refs
  induction refs with
  | nil => intro prev cur _; cases prev with
      | nil => rfl
      | cons d rest => cases rest <;> rfl
  | cons rc rs ih =>
      intro prev cur h
      cases prev with
      | nil => simp at h
      | cons d rest =>
          cases rest with
          | nil => simp at h
          | cons u rest' =>
              show (mkCell cfg qc rc d u cur :: buildRow cfg qc rs (u :: rest') _).length = _
              simp only [List.length_cons]
              rw [ih (u :: rest') _ (by simpa using h)]

theorem rowFor_length (cfg : Cfg) (qc : Char) (refs : List Char) (prev : List SCell) (i : Nat)
    (h : prev.length = refs.length + 1) :
    (rowFor cfg qc refs prev i).length = refs.length + 1 := by
  show (leftCell cfg i :: buildRow cfg qc refs prev _).length = _
  simp [buildRow_length cfg qc refs prev _ h]

theorem row0_length (cfg : Cfg) (m : Nat) : (row0 cfg m).length = m + 1 := by
  simp [row0]

theorem tableRows_length (cfg : Cfg) (refs : List Char) :
    ∀ (qs : List Char) (prev : List SCell) (i : Nat),
      (tableRows cfg refs qs prev i).length = qs.length := by
  intro qs
  induction qs with
  | nil => intro prev i; rfl
  | cons qc qs' ih =>
      intro prev i
      show (rowFor cfg qc refs prev i :: tableRows cfg refs qs' _ (i + 1)).length = _
      simp [ih]

theorem table_length (cfg : Cfg) (q r : List Char) :
    (table cfg q r).length = q.length + 1 := by
  show (row0 cfg r.length :: tableRows cfg r q _ 1).length = _
  simp [tableRows_length]

theorem tableRows_row_length (cfg : Cfg) (refs : List Char) :
    ∀ (qs : List Char) (prev : List SCell) (i : Nat),
      prev.length = refs.length + 1 →
      ∀ row ∈ tableRows cfg refs qs prev i, row.length = refs.length + 1 := by
  intro qs
  induction qs with
  | nil => intro prev i _ row hrow; cases hrow
  | cons qc qs' ih =>
      intro prev i h row hrow
      have hthis : (rowFor cfg qc refs prev i).length = refs.length + 1 :=
        rowFor_length cfg qc refs prev i h
      rcases List.mem_cons.mp hrow with h' | h'
      · rw [h']; exact hthis
      · exact ih (rowFor cfg qc refs prev i) (i + 1) hthis row h'

theorem table_row_length (cfg : Cfg) (q r : List Char) :
    ∀ row ∈ table cfg q r, row.length = r.length + 1 := by
  intro row hrow
  rcases List.mem_cons.mp hrow with h | h
  · rw [h]; exact row0_length cfg r.length
  · exact tableRows_row_length cfg r q (row0 cfg r.length) 1 (row0_length cfg r.length) row h

theorem table_row_length_of_getElem? (cfg : Cfg) (q r : List Char) (i : Nat)
    (row : List SCell) (h : (table cfg q r)[i]? = some row) : row.length = r.length + 1 :=
  table_row_length cfg q r row (List.getElem?_mem h)

/-! The cell to the left of position j in a row under construction. -/

def leftOf (inner : List SCell) (cur : SCell) : Nat → SCell
  | 0 => cur
  | t + 1 => inner.getD t botCell

theorem leftOf_shift (inner : List SCell) (c0 cur : SCell) (t : Nat) :
    leftOf (c0 :: inner) cur (t + 1) = leftOf inner c0 t := by
  cases t with
  | zero => rfl
  | succ s => rfl

/-- Interior recurrence of one row: position j of a built row is the mkCell
of the matching reference character, the two cells above, and the cell to the
left. -/
theorem buildRow_getElem? (cfg : Cfg) (qc : Char) :
    ∀ (refs : List Char) (prev : List SCell) (cur : SCell) (j : Nat) (rc : Char) (d u : SCell),
      prev.length = refs.length + 1 →
      refs[j]? = some rc → prev[j]? = some d → prev[j + 1]? = some u →
      (buildRow cfg qc refs prev cur)[j]? =
        some (mkCell cfg qc rc d u (leftOf (buildRow cfg qc refs prev cur) cur j)) := by
  intro refs
  induction refs with
  | nil => intro prev cur j rc d u _ hrc _ _; simp at hrc
  | cons rc0 rs ih =>
      intro prev cur j rc d u hlen hrc hd hu
      cases prev with
      | nil => simp at hlen
      | cons d0 rest =>
          cases rest with
          | nil => simp at hlen
          | cons u0 rest' =>
              have hbr : buildRow cfg qc (rc0 :: rs) (d0 :: u0 :: rest') cur
                  = mkCell cfg qc rc0 d0 u0 cur ::
                    buildRow cfg qc rs (u0 :: rest') (mkCell cfg qc rc0 d0 u0 cur) := rfl
              rw [hbr]
              cases j with
              | zero =>
                  simp only [List.getElem?_cons_zero, Option.some.injEq] at hrc hd
                  have hu' : u = u0 := by
                    simp only [List.getElem?_cons_succ, List.getElem?_cons_zero,
                      Option.some.injEq] at hu
                    exact hu.symm
                  subst hrc; subst hd; subst hu'
                  simp [leftOf]
              | succ t =>
                  simp only [List.getElem?_cons_succ] at hrc
                  have hd' : (u0 :: rest')[t]? = some d := by simpa using hd
                  have hu' : (u0 :: rest')[t + 1]? = some u := by simpa using hu
                  rw [List.getElem?_cons_succ, leftOf_shift]
                  exact ih (u0 :: rest') (mkCell cfg qc rc0 d0 u0 cur) t rc d u
                    (by simpa using hlen) hrc hd' hu'

/-! The previous row of row t in the stacked rows. -/

def prevRowOf (rows : List (List SCell)) (prevInit : List SCell) : Nat → List SCell
  | 0 => prevInit
  | t + 1 => rows.getD t []

theorem prevRowOf_shift (inner : List (List SCell)) (row prevInit : List SCell) (t : Nat) :
    prevRowOf (row :: inner) prevInit (t + 1) = prevRowOf inner row t := by
  cases t with
  | zero => rfl
  | succ s => rfl

/-- Row recurrence: row t of the stacked rows is built from its predecessor
row with the matching query character and boundary index. -/
theorem tableRows_getElem? (cfg : Cfg) (refs : List Char) :
    ∀ (qs : List Char) (prev : List SCell) (i t : Nat) (qc : Char),
      qs[t]? = some qc →
      (tableRows cfg refs qs prev i)[t]? =
        some (rowFor cfg qc refs (prevRowOf (tableRows cfg refs qs prev i) prev t) (i + t)) := by
  intro qs
  induction qs with
  | nil => intro prev i t qc hqc; simp at hqc
  | cons qc0 qs' ih =>
      intro prev i t qc hqc
      have hbr : tableRows cfg refs (qc0 :: qs') prev i
          = rowFor cfg qc0 refs prev i ::
            tableRows cfg refs qs' (rowFor cfg qc0 refs prev i) (i + 1) := rfl
      rw [hbr]
      cases t with
      | zero =>
          simp only [List.getElem?_cons_zero, Option.some.injEq] at hqc
          subst hqc
          rw [Nat.add_zero]
          simp [prevRowOf]
      | succ s =>
          simp only [List.getElem?_cons_succ] at hqc
          rw [List.getElem?_cons_succ, prevRowOf_shift]
          rw [ih (rowFor cfg qc0 refs prev i) (i + 1) s qc hqc]
          have : i + 1 + s = i + (s + 1) := by omega
          rw [this]

/-! Boundary and recurrence characterization of the grid cells. -/

theorem table_cell_zero_zero (cfg : Cfg) (q r : List Char) :
    getCellD (table cfg q r) 0 0 = cornerCell := rfl

theorem table_cell_top (cfg : Cfg) (q r : List Char) (j : Nat) (hj : j < r.length) :
    getCellD (table cfg q r) 0 (j + 1) = topCell cfg (j + 1) := by
  show ((table cfg q r).getD 0 []).getD (j + 1) botCell = _
  have h0 : (table cfg q r).getD 0 [] = row0 cfg r.length := rfl
  rw [h0]
  show (cornerCell :: (List.range r.length).map (fun t => topCell cfg (t + 1))).getD (j + 1) botCell = _
  rw [List.getD_cons_succ]
  apply getD_of_getElem?
  rw [List.getElem?_map, List.getElem?_range hj]
  rfl

theorem table_prev_row (cfg : Cfg) (q r : List Char) (i : Nat) (hi : i ≤ q.length) :
    (table cfg q r)[i]? =
      some (prevRowOf (tableRows cfg r q (row0 cfg r.length) 1) (row0 cfg r.length) i) := by
  cases i with
  | zero =>
      show (row0 cfg r.length :: tableRows cfg r q (row0 cfg r.length) 1)[0]? = _
      rw [List.getElem?_cons_zero]
      rfl
  | succ s =>
      have hs : s < q.length := by omega
      have hqc : q[s]? = some (q.getD s 'A') := getElem?_eq_some_getD q s 'A' hs
      have h := tableRows_getElem? cfg r q (row0 cfg r.length) 1 s (q.getD s 'A') hqc
      show (row0 cfg r.length :: tableRows cfg r q (row0 cfg r.length) 1)[s + 1]? = _
      rw [List.getElem?_cons_succ, h]
      show _ = some ((tableRows cfg r q (row0 cfg r.length) 1).getD s [])
      rw [getD_of_getElem? _ _ _ _ h]

theorem table_row_eq (cfg : Cfg) (q r : List Char) (i : Nat) (hi : i < q.length) (qc : Char)
    (hqc : q[i]? = some qc) :
    (table cfg q r).getD (i + 1) [] =
      rowFor cfg qc r ((table cfg q r).getD i []) (1 + i) := by
  have hrow := tableRows_getElem? cfg r q (row0 cfg r.length) 1 i qc hqc
  have hprev := table_prev_row cfg q r i (le_of_lt hi)
  have h1 : (table cfg q r).getD (i + 1) [] =
      rowFor cfg qc r (prevRowOf (tableRows cfg r q (row0 cfg r.length) 1) (row0 cfg r.length) i)
        (1 + i) := by
    show (row0 cfg r.length :: tableRows cfg r q (row0 cfg r.length) 1).getD (i + 1) [] = _
    rw [List.getD_cons_succ]
    exact getD_of_getElem? _ _ _ _ hrow
  rw [h1, getD_of_getElem? _ _ _ _ hprev]

theorem table_cell_left (cfg : Cfg) (q r : List Char) (i : Nat) (hi : i < q.length) :
    getCellD (table cfg q r) (i + 1) 0 = leftCell cfg (i + 1) := by
  have hqc : q[i]? = some (q.getD i 'A') := getElem?_eq_some_getD q i 'A' hi
  show ((table cfg q r).getD (i + 1) []).getD 0 botCell = _
  rw [table_row_eq cfg q r i hi _ hqc]
  show leftCell cfg (1 + i) = leftCell cfg (i + 1)
  rw [Nat.add_comm]

theorem table_rec (cfg : Cfg) (q r : List Char) (i j : Nat) (hi : i < q.length)
    (hj : j < r.length) :
    getCellD (table cfg q r) (i + 1) (j + 1) =
      mkCell cfg (q.getD i 'A') (r.getD j 'A')
        (getCellD (table cfg q r) i j) (getCellD (table cfg q r) i (j + 1))
        (getCellD (table cfg q r) (i + 1) j) := by
  have hqc : q[i]? = some (q.getD i 'A') := getElem?_eq_some_getD q i 'A' hi
  have hrc : r[j]? = some (r.getD j 'A') := getElem?_eq_some_getD r j 'A' hj
  have hprev := table_prev_row cfg q r i (le_of_lt hi)
  have hlenPrev : ((table cfg q r).getD i []).length = r.length + 1 := by
    rw [getD_of_getElem? _ _ _ _ hprev]
    exact table_row_length_of_getElem? cfg q r i _ hprev
  have hd : ((table cfg q r).getD i [])[j]? =
      some (((table cfg q r).getD i []).getD j botCell) :=
    getElem?_eq_some_getD _ j botCell (by omega)
  have hu : ((table cfg q r).getD i [])[j + 1]? =
      some (((table cfg q r).getD i []).getD (j + 1) botCell) :=
    getElem?_eq_some_getD _ (j + 1) botCell (by omega)
  have hinner := buildRow_getElem? cfg (q.getD i 'A') r ((table cfg q r).getD i [])
    (leftCell cfg (1 + i)) j (r.getD j 'A') _ _ hlenPrev hrc hd hu
  have hrowi1 := table_row_eq cfg q r i hi _ hqc
  show ((table cfg q r).getD (i + 1) []).getD (j + 1) botCell = _
  rw [hrowi1]
  show (leftCell cfg (1 + i) ::
      buildRow cfg (q.getD i 'A') r ((table cfg q r).getD i []) (leftCell cfg (1 + i))).getD
        (j + 1) botCell = _
  rw [List.getD_cons_succ, getD_of_getElem? _ _ _ _ hinner]
  have hleft : leftOf
      (buildRow cfg (q.getD i 'A') r ((table cfg q r).getD i []) (leftCell cfg (1 + i)))
      (leftCell cfg (1 + i)) j = getCellD (table cfg q r) (i + 1) j := by
    cases j with
    | zero =>
        show leftCell cfg (1 + i) = getCellD (table cfg q r) (i + 1) 0
        rw [table_cell_left cfg q r i hi, Nat.add_comm]
    | succ s =>
        show (buildRow cfg (q.getD i 'A') r ((table cfg q r).getD i [])
            (leftCell cfg (1 + i))).getD s botCell = getCellD (table cfg q r) (i + 1) (s + 1)
        show _ = ((table cfg q r).getD (i + 1) []).getD (s + 1) botCell
        rw [hrowi1]
        show _ = (leftCell cfg (1 + i) ::
          buildRow cfg (q.getD i 'A') r ((table cfg q r).getD i [])
            (leftCell cfg (1 + i))).getD (s + 1) botCell
        rw [List.getD_cons_succ]
  rw [hleft]
  rfl

/-- Induction over the cells of the grid: a property that holds on the
boundary and is preserved by the interior recurrence holds everywhere. -/
theorem table_ind (cfg : Cfg) (q r : List Char) (P : Nat → Nat → SCell → Prop)
    (h00 : P 0 0 cornerCell)
    (htop : ∀ j, j < r.length → P 0 (j + 1) (topCell cfg (j + 1)))
    (hleft : ∀ i, i < q.length → P (i + 1) 0 (leftCell cfg (i + 1)))
    (hstep : ∀ i j, i < q.length → j < r.length →
      P i j (getCellD (table cfg q r) i j) →
      P i (j + 1) (getCellD (table cfg q r) i (j + 1)) →
      P (i + 1) j (getCellD (table cfg q r) (i + 1) j) →
      P (i + 1) (j + 1) (getCellD (table cfg q r) (i + 1) (j + 1))) :
    ∀ i j, i ≤ q.length → j ≤ r.length → P i j (getCellD (table cfg q r) i j) := by
  have main : ∀ s i j, i + j = s → i ≤ q.length → j ≤ r.length →
      P i j (getCellD (table cfg q r) i j) := by
    intro s
    induction s using Nat.strong_induction_on with
    | _ s IH =>
        intro i j hs hi hj
        cases i with
        | zero =>
            cases j with
            | zero => rw [table_cell_zero_zero]; exact h00
            | succ j' =>
                rw [table_cell_top cfg q r j' (by omega)]
                exact htop j' (by omega)
        | succ i' =>
            cases j with
            | zero =>
                rw [table_cell_left cfg q r i' (by omega)]
                exact hleft i' (by omega)
            | succ j' =>
                exact hstep i' j' (by omega) (by omega)
                  (IH (i' + j') (by omega) i' j' rfl (by omega) (by omega))
                  (IH (i' + (j' + 1)) (by omega) i' (j' + 1) rfl (by omega) (by omega))
                  (IH (i' + 1 + j') (by omega) (i' + 1) j' rfl (by omega) (by omega))
  intro i j hi hj
  exact main (i + j) i j rfl hi hj

/-! Relating the candidate lists to grid cells. -/

theorem tail_getElem? {α : Type} (l : List α) (t : Nat) : l.tail[t]? = l[t + 1]? := by
  cases l <;> simp

theorem getLastD_eq_getD {α : Type} (l : List α) (d : α) (k : Nat) (hk : l.length = k + 1) :
    l.getLastD d = l.getD k d := by
  have h1 : l.getLastD d = (l.getLast?).getD d := by
    cases l <;> simp [List.getLastD_eq_getLast?]
  rw [h1, List.getLast?_eq_getElem?, hk, Nat.add_sub_cancel, List.getD_eq_getElem?_getD]

theorem lastRowOf_eq (cfg : Cfg) (q r : List Char) :
    lastRowOf (table cfg q r) = (table cfg q r).getD q.length [] := by
  unfold lastRowOf
  have h1 : (table cfg q r).getLastD [] = ((table cfg q r).getLast?).getD [] := by
    cases htab : table cfg q r with
    | nil => simp
    | cons a l => simp [List.getLastD_eq_getLast?]
  rw [h1, List.getLast?_eq_getElem?, table_length, Nat.add_sub_cancel,
    List.getD_eq_getElem?_getD]

theorem table_getD_length (cfg : Cfg) (q r : List Char) (i : Nat) (hi : i ≤ q.length) :
    ((table cfg q r).getD i []).length = r.length + 1 := by
  have h := table_prev_row cfg q r i hi
  rw [getD_of_getElem? _ _ _ _ h]
  exact table_row_length_of_getElem? cfg q r i _ h

theorem getCellD_getD (T : List (List SCell)) (i j : Nat) :
    getCellD T i j = (T.getD i []).getD j botCell := rfl

/-- Forward direction: every member of rowEnds is the best track of a cell of
the row, with its one-based position. -/
theorem rowEnds_mem_spec (i : Nat) (row : List SCell) (p : EndPt) (hp : p ∈ rowEnds i row) :
    ∃ j, 1 ≤ j ∧ j + 1 ≤ row.length ∧ p = ⟨i, j, bestTrk (row.getD j botCell)⟩ := by
  unfold rowEnds at hp
  obtain ⟨pair, hpair, hpeq⟩ := List.mem_map.mp hp
  obtain ⟨t, ht⟩ := List.getElem?_of_mem hpair
  rw [idxFrom_getElem?, tail_getElem?] at ht
  cases hcell : row[t + 1]? with
  | none => rw [hcell] at ht; simp at ht
  | some cell =>
      rw [hcell] at ht
      simp only [Option.map_some', Option.some.injEq] at ht
      refine ⟨1 + t, by omega, ?_, ?_⟩
      · have hlt : t + 1 < row.length := by
          rcases List.getElem?_eq_some.mp hcell with ⟨hlt, _⟩
          exact hlt
        omega
      · rw [← hpeq, ← ht]
        have hc : cell = row.getD (1 + t) botCell := by
          rw [Nat.add_comm]
          exact (getD_of_getElem? row (t + 1) botCell cell hcell).symm
        rw [hc]

/-- Reverse direction: every interior cell of the row contributes a
candidate. -/
theorem rowEnds_mem_of (i : Nat) (row : List SCell) (j : Nat) (h1 : 1 ≤ j)
    (h2 : j + 1 ≤ row.length) :
    (⟨i, j, bestTrk (row.getD j botCell)⟩ : EndPt) ∈ rowEnds i row := by
  unfold rowEnds
  apply List.mem_map.mpr
  refine ⟨(j, row.getD j botCell), ?_, rfl⟩
  have hidx : (idxFrom 1 row.tail)[j - 1]? = some (j, row.getD j botCell) := by
    rw [idxFrom_getElem?, tail_getElem?]
    have hj1 : j - 1 + 1 = j := by omega
    rw [hj1, getElem?_eq_some_getD row j botCell (by omega)]
    simp only [Option.map_some', Option.some.injEq]
    rw [show 1 + (j - 1) = j by omega]
  exact List.getElem?_mem hidx

theorem colEnds_mem_spec (m : Nat) (col : List SCell) (p : EndPt) (hp : p ∈ colEnds m col) :
    ∃ i, 1 ≤ i ∧ i ≤ col.length ∧ p = ⟨i, m, bestTrk (col.getD (i - 1) botCell)⟩ := by
  unfold colEnds at hp
  obtain ⟨pair, hpair, hpeq⟩ := List.mem_map.mp hp
  obtain ⟨t, ht⟩ := List.getElem?_of_mem hpair
  rw [idxFrom_getElem?] at ht
  cases hcell : col[t]? with
  | none => rw [hcell] at ht; simp at ht
  | some cell =>
      rw [hcell] at ht
      simp only [Option.map_some', Option.some.injEq] at ht
      refine ⟨1 + t, by omega, ?_, ?_⟩
      · have hlt : t < col.length := by
          rcases List.getElem?_eq_some.mp hcell with ⟨hlt, _⟩
          exact hlt
        omega
      · rw [← hpeq, ← ht]
        have hc : cell = col.getD (1 + t - 1) botCell := by
          rw [show 1 + t - 1 = t by omega]
          exact (getD_of_getElem? col t botCell cell hcell).symm
        rw [hc]

theorem colEnds_mem_of (m : Nat) (col : List SCell) (i : Nat) (h1 : 1 ≤ i)
    (h2 : i ≤ col.length) :
    (⟨i, m, bestTrk (col.getD (i - 1) botCell)⟩ : EndPt) ∈ colEnds m col := by
  unfold colEnds
  apply List.mem_map.mpr
  refine ⟨(i, col.getD (i - 1) botCell), ?_, rfl⟩
  have hidx : (idxFrom 1 col)[i - 1]? = some (i, col.getD (i - 1) botCell) := by
    rw [idxFrom_getElem?, getElem?_eq_some_getD col (i - 1) botCell (by omega)]
    simp only [Option.map_some', Option.some.injEq]
    rw [show 1 + (i - 1) = i by omega]
  exact List.getElem?_mem hidx

theorem lastRowOf_length (cfg : Cfg) (q r : List Char) :
    (lastRowOf (table cfg q r)).length = r.length + 1 := by
  rw [lastRowOf_eq]
  exact table_getD_length cfg q r q.length (le_refl _)

theorem lastRowOf_getD (cfg : Cfg) (q r : List Char) (j : Nat) :
    (lastRowOf (table cfg q r)).getD j botCell = getCellD (table cfg q r) q.length j := by
  rw [lastRowOf_eq, getCellD_getD]

theorem lastColOf_length (cfg : Cfg) (q r : List Char) :
    (lastColOf (table cfg q r)).length = q.length := by
  unfold lastColOf
  rw [List.length_map, List.length_tail, table_length, Nat.add_sub_cancel]

theorem lastColOf_getD (cfg : Cfg) (q r : List Char) (i : Nat) (h1 : 1 ≤ i)
    (h2 : i ≤ q.length) :
    (lastColOf (table cfg q r)).getD (i - 1) botCell = getCellD (table cfg q r) i r.length := by
  have hTl := table_prev_row cfg q r i h2
  have hlen : (prevRowOf (tableRows cfg r q (row0 cfg r.length) 1) (row0 cfg r.length) i).length
      = r.length + 1 := table_row_length_of_getElem? cfg q r i _ hTl
  have htail : (table cfg q r).tail[i - 1]? = (table cfg q r)[i]? := by
    rw [tail_getElem?, show i - 1 + 1 = i by omega]
  have hcol : (lastColOf (table cfg q r))[i - 1]? =
      some ((prevRowOf (tableRows cfg r q (row0 cfg r.length) 1) (row0 cfg r.length) i).getLastD
        botCell) := by
    unfold lastColOf
    rw [List.getElem?_map, htail, hTl]
    rfl
  rw [getD_of_getElem? _ _ _ _ hcol, getLastD_eq_getD _ _ _ hlen, getCellD_getD,
    getD_of_getElem? _ _ _ _ hTl]

/-- Forward spec of the sg candidate list: every candidate is the best track
of a grid cell in the last row or last column, with in-range one-based ends. -/
theorem sgCands_spec (q r : List Char) (o e : Int) (subf : Char → Char → Int)
    (hq : 1 ≤ q.length) (hr : 1 ≤ r.length) (p : EndPt) (hp : p ∈ sgCands q r o e subf) :
    1 ≤ p.qe ∧ p.qe ≤ q.length ∧ 1 ≤ p.re ∧ p.re ≤ r.length ∧
      p.trk = bestTrk (getCellD (table (sgCfg subf o e) q r) p.qe p.re) := by
  rcases List.mem_append.mp hp with h | h
  · obtain ⟨j, hj1, hj2, hpe⟩ := rowEnds_mem_spec _ _ _ h
    rw [lastRowOf_length] at hj2
    subst hpe
    refine ⟨hq, le_refl _, hj1, by change j ≤ r.length; omega, ?_⟩
    rw [lastRowOf_getD]
  · obtain ⟨i, hi1, hi2, hpe⟩ := colEnds_mem_spec _ _ _ h
    rw [lastColOf_length] at hi2
    subst hpe
    refine ⟨hi1, hi2, hr, le_refl _, ?_⟩
    rw [lastColOf_getD _ q r i hi1 hi2]

theorem qxCands_spec (q r : List Char) (o e : Int) (subf : Char → Char → Int)
    (hq : 1 ≤ q.length) (p : EndPt) (hp : p ∈ qxCands q r o e subf) :
    1 ≤ p.qe ∧ p.qe ≤ q.length ∧ 1 ≤ p.re ∧ p.re ≤ r.length ∧
      p.trk = bestTrk (getCellD (table (qxCfg subf o e) q r) p.qe p.re) := by
  obtain ⟨j, hj1, hj2, hpe⟩ := rowEnds_mem_spec _ _ _ hp
  rw [lastRowOf_length] at hj2
  subst hpe
  refine ⟨hq, le_refl _, hj1, by change j ≤ r.length; omega, ?_⟩
  rw [lastRowOf_getD]

theorem dxCands_spec (q r : List Char) (o e : Int) (subf : Char → Char → Int)
    (hr : 1 ≤ r.length) (p : EndPt) (hp : p ∈ dxCands q r o e subf) :
    1 ≤ p.qe ∧ p.qe ≤ q.length ∧ 1 ≤ p.re ∧ p.re ≤ r.length ∧
      p.trk = bestTrk (getCellD (table (dxCfg subf o e) q r) p.qe p.re) := by
  obtain ⟨i, hi1, hi2, hpe⟩ := colEnds_mem_spec _ _ _ hp
  rw [lastColOf_length] at hi2
  subst hpe
  refine ⟨hi1, hi2, hr, le_refl _, ?_⟩
  rw [lastColOf_getD _ q r i hi1 hi2]

theorem interiorEnds_mem_spec (cfg : Cfg) (q r : List Char) (p : EndPt)
    (hp : p ∈ interiorEnds (table cfg q r)) :
    1 ≤ p.qe ∧ p.qe ≤ q.length ∧ 1 ≤ p.re ∧ p.re ≤ r.length ∧
      p.trk = bestTrk (getCellD (table cfg q r) p.qe p.re) := by
  unfold interiorEnds at hp
  obtain ⟨l, hl, hpl⟩ := List.mem_flatten.mp hp
  obtain ⟨pair, hpair, hleq⟩ := List.mem_map.mp hl
  obtain ⟨s, hs⟩ := List.getElem?_of_mem hpair
  rw [idxFrom_getElem?, tail_getElem?] at hs
  cases hrow : (table cfg q r)[s + 1]? with
  | none => rw [hrow] at hs; simp at hs
  | some row =>
      rw [hrow] at hs
      simp only [Option.map_some', Option.some.injEq] at hs
      have hslt : s + 1 < (table cfg q r).length := by
        rcases List.getElem?_eq_some.mp hrow with ⟨hlt, _⟩
        exact hlt
      rw [table_length] at hslt
      have hrowlen : row.length = r.length + 1 := table_row_length_of_getElem? cfg q r _ _ hrow
      rw [← hleq] at hpl
      rw [← hs] at hpl
      obtain ⟨j, hj1, hj2, hpe⟩ := rowEnds_mem_spec _ _ _ hpl
      rw [hrowlen] at hj2
      subst hpe
      refine ⟨by change 1 ≤ 1 + s; omega, by change 1 + s ≤ q.length; omega, hj1,
        by change j ≤ r.length; omega, ?_⟩
      have hcq : getCellD (table cfg q r) (1 + s) j = row.getD j botCell := by
        rw [getCellD_getD, show 1 + s = s + 1 by omega, getD_of_getElem? _ _ _ _ hrow]
      rw [hcq]

theorem interiorEnds_mem_of (cfg : Cfg) (q r : List Char) (i j : Nat) (hi1 : 1 ≤ i)
    (hi2 : i ≤ q.length) (hj1 : 1 ≤ j) (hj2 : j ≤ r.length) :
    (⟨i, j, bestTrk (getCellD (table cfg q r) i j)⟩ : EndPt) ∈ interiorEnds (table cfg q r) := by
  unfold interiorEnds
  apply List.mem_flatten.mpr
  have hrow := table_prev_row cfg q r i hi2
  have hrowlen := table_row_length_of_getElem? cfg q r i _ hrow
  refine ⟨rowEnds i (prevRowOf (tableRows cfg r q (row0 cfg r.length) 1) (row0 cfg r.length) i),
    ?_, ?_⟩
  · apply List.mem_map.mpr
    refine ⟨(i, prevRowOf (tableRows cfg r q (row0 cfg r.length) 1) (row0 cfg r.length) i),
      ?_, rfl⟩
    have hidx : (idxFrom 1 (table cfg q r).tail)[i - 1]? =
        some (i, prevRowOf (tableRows cfg r q (row0 cfg r.length) 1) (row0 cfg r.length) i) := by
      rw [idxFrom_getElem?, tail_getElem?, show i - 1 + 1 = i by omega, hrow]
      simp only [Option.map_some', Option.some.injEq]
      rw [show 1 + (i - 1) = i by omega]
    exact List.getElem?_mem hidx
  · have hcell : getCellD (table cfg q r) i j =
        (prevRowOf (tableRows cfg r q (row0 cfg r.length) 1) (row0 cfg r.length) i).getD j
          botCell := by
      rw [getCellD_getD, getD_of_getElem? _ _ _ _ hrow]
    rw [hcell]
    exact rowEnds_mem_of i _ j hj1 (by omega)

theorem swCands_spec (q r : List Char) (o e : Int) (subf : Char → Char → Int) (p : EndPt)
    (hp : p ∈ swCands q r o e subf) :
    1 ≤ p.qe ∧ p.qe ≤ q.length ∧ 1 ≤ p.re ∧ p.re ≤ r.length ∧
      p.trk = bestTrk (getCellD (table (localCfg subf o e) q r) p.qe p.re) :=
  interiorEnds_mem_spec _ q r p hp

theorem swCands_mem_of (q r : List Char) (o e : Int) (subf : Char → Char → Int) (i j : Nat)
    (hi1 : 1 ≤ i) (hi2 : i ≤ q.length) (hj1 : 1 ≤ j) (hj2 : j ≤ r.length) :
    (⟨i, j, bestTrk (getCellD (table (localCfg subf o e) q r) i j)⟩ : EndPt) ∈
      swCands q r o e subf :=
  interiorEnds_mem_of _ q r i j hi1 hi2 hj1 hj2

theorem sgCands_mem_row_of (q r : List Char) (o e : Int) (subf : Char → Char → Int) (j : Nat)
    (hj1 : 1 ≤ j) (hj2 : j ≤ r.length) :
    (⟨q.length, j, bestTrk (getCellD (table (sgCfg subf o e) q r) q.length j)⟩ : EndPt) ∈
      sgCands q r o e subf := by
  apply List.mem_append_left
  have h := rowEnds_mem_of q.length (lastRowOf (table (sgCfg subf o e) q r)) j hj1
    (by rw [lastRowOf_length]; omega)
  rw [lastRowOf_getD] at h
  exact h

/-! Rewriting the candidate values of the sg scan as an explicit maximum over
the last row and last column of the grid. -/

theorem rowEnds_map_v (cfg : Cfg) (q r : List Char) :
    (rowEnds q.length (lastRowOf (table cfg q r))).map (fun p => p.trk.v) =
      (List.range r.length).map
        (fun j => (bestTrk (getCellD (table cfg q r) q.length (j + 1))).v) := by
  apply List.ext_getElem?
  intro t
  unfold rowEnds
  rw [List.getElem?_map, List.getElem?_map, idxFrom_getElem?, tail_getElem?,
    List.getElem?_map]
  rcases lt_or_le t r.length with ht | ht
  · rw [getElem?_eq_some_getD (lastRowOf (table cfg q r)) (t + 1) botCell
      (by rw [lastRowOf_length]; omega)]
    rw [List.getElem?_range ht]
    simp only [Option.map_some']
    rw [lastRowOf_getD]
  · have h1 : (lastRowOf (table cfg q r))[t + 1]? = none :=
      List.getElem?_eq_none (by rw [lastRowOf_length]; omega)
    have h2 : (List.range r.length)[t]? = none :=
      List.getElem?_eq_none (by rw [List.length_range]; omega)
    rw [h1, h2]
    rfl

theorem colEnds_map_v (cfg : Cfg) (q r : List Char) :
    (colEnds r.length (lastColOf (table cfg q r))).map (fun p => p.trk.v) =
      (List.range q.length).map
        (fun i => (bestTrk (getCellD (table cfg q r) (i + 1) r.length)).v) := by
  apply List.ext_getElem?
  intro t
  unfold colEnds
  rw [List.getElem?_map, List.getElem?_map, idxFrom_getElem?, List.getElem?_map]
  rcases lt_or_le t q.length with ht | ht
  · rw [getElem?_eq_some_getD (lastColOf (table cfg q r)) t botCell
      (by rw [lastColOf_length]; omega)]
    rw [List.getElem?_range ht]
    simp only [Option.map_some']
    have hcol : (lastColOf (table cfg q r)).getD t botCell =
        getCellD (table cfg q r) (t + 1) r.length := by
      have h := lastColOf_getD cfg q r (t + 1) (by omega) (by omega)
      rw [Nat.add_sub_cancel] at h
      exact h
    rw [hcol]
  · have h1 : (lastColOf (table cfg q r))[t]? = none :=
      List.getElem?_eq_none (by rw [lastColOf_length]; omega)
    have h2 : (List.range q.length)[t]? = none :=
      List.getElem?_eq_none (by rw [List.length_range]; omega)
    rw [h1, h2]
    rfl

/-- C9: Dropping a Matrix releases its backing store (exactly one
parasail_matrix_free call) precisely when the matrix was constructed
parametrically — MatrixType::Identity or MatrixType::IdentityWithPenalty,
the variants Matrix::new builds via parasail_matrix_create — and performs no
release action for every named/static BLOSUM and PAM variant, which
Matrix::new obtains via parasail_matrix_lookup. -/
theorem drop_frees_iff_parametric :
    ∀ t : MatrixType,
      (newMatrixOrigin t = MatrixOrigin.createdParametric ↔
        (t = MatrixType.Identity ∨ t = MatrixType.IdentityWithPenalty)) ∧
      dropFreeCount t =
        (if newMatrixOrigin t = MatrixOrigin.createdParametric then 1 else 0) := by
  intro t
  cases t <;> exact ⟨by decide, by decide⟩

/-- C8: In both traceback entry points (semi_global_traceback and
semi_global_dx_traceback) the comparison row uses the glyph '|' for an exact
match and also '|' for a positive-scoring mismatch — the two outcomes are
never distinguished by glyph — and the glyph ':' for a negative-scoring
mismatch. -/
theorem comp_trace_glyph_convention :
    sgMatchChar = '|' ∧ sgPositiveMismatchChar = '|' ∧ sgNegativeMismatchChar = ':' ∧
    dxMatchChar = '|' ∧ dxPositiveMismatchChar = '|' ∧ dxNegativeMismatchChar = ':' ∧
    sgMatchChar = sgPositiveMismatchChar ∧ dxMatchChar = dxPositiveMismatchChar ∧
    (∀ (subf : Char → Char → Int) (a b : Char),
      (a = b →
        compGlyph subf sgMatchChar sgPositiveMismatchChar sgNegativeMismatchChar a b = '|' ∧
        compGlyph subf dxMatchChar dxPositiveMismatchChar dxNegativeMismatchChar a b = '|') ∧
      (a ≠ b → 0 < subf a b →
        compGlyph subf sgMatchChar sgPositiveMismatchChar sgNegativeMismatchChar a b = '|' ∧
        compGlyph subf dxMatchChar dxPositiveMismatchChar dxNegativeMismatchChar a b = '|') ∧
      (a ≠ b → subf a b < 0 →
        compGlyph subf sgMatchChar sgPositiveMismatchChar sgNegativeMismatchChar a b = ':' ∧
        compGlyph subf dxMatchChar dxPositiveMismatchChar dxNegativeMismatchChar a b = ':')) := by
  refine ⟨rfl, rfl, rfl, rfl, rfl, rfl, rfl, rfl, ?_⟩
  intro subf a b
  refine ⟨?_, ?_, ?_⟩
  · intro hab
    unfold compGlyph
    rw [if_pos hab, if_pos hab]
    exact ⟨rfl, rfl⟩
  · intro hab hpos
    unfold compGlyph
    rw [if_neg hab, if_neg hab, if_pos hpos, if_pos hpos]
    exact ⟨rfl, rfl⟩
  · intro hab hneg
    unfold compGlyph
    rw [if_neg hab, if_neg hab, if_neg (not_lt.mpr (le_of_lt hneg)),
      if_neg (not_lt.mpr (le_of_lt hneg))]
    exact ⟨rfl, rfl⟩

/-- Witness for C8 at a concrete negative-scoring mismatch. -/
theorem comp_trace_glyph_convention_witness :
    ('A' ≠ 'R') ∧ identityWithPenaltyScore 'A' 'R' < 0 ∧
      compGlyph identityWithPenaltyScore sgMatchChar sgPositiveMismatchChar
        sgNegativeMismatchChar 'A' 'R' = ':' :=
  ⟨by decide, by decide,
    ((comp_trace_glyph_convention.2.2.2.2.2.2.2.2 identityWithPenaltyScore 'A' 'R').2.2
      (by decide) (by decide)).1⟩

/-- C6: The 50-character doc-test query of align.rs aligned globally against
an identical reference with the identity matrix and gap costs 1/1 scores 50,
and against the 52-character reference containing the TTTTTCCTTTTTT segment
scores 48, as the doc-test of global_alignment_score asserts. -/
theorem global_concrete_scores :
    global_alignment_score seqA50 seqA50 1 1 identityScore = ((50 : Int) : WithBot Int) ∧
    global_alignment_score seqA50 seqB52 1 1 identityScore = ((48 : Int) : WithBot Int) :=
  ⟨by decide, by decide⟩

/-- C7: Aligning the 17-character query AAAACCCCCCCCCCGGG against the
50-character superstring reference in reference-gap-free semi-global mode
with the identity matrix and gap costs 1/1 yields score 17, num_matches 17,
num_positive_subs 17, align_length 17, query_end 17 and ref_end 23, exactly
as test_semiglobal_stats asserts. -/
theorem semi_global_stats_concrete :
    semi_global_alignment_stats seqQ17 seqA50 1 1 identityScore =
      ⟨17, 17, 17, 17, 17, 23⟩ := by
  decide

/-- C1 counterexample: on the second rust-bio-derived input of
test_semiglobal_stats (query CCGGCA, reference ACCGTTGACGC, gap open 5, gap
extend 1, identity-with-penalty matrix) the procedure the claim describes —
row 0 free, query edge gaps charged as in global mode, answer the maximum
cell_best across the last row — yields 0, while the repository's own test
asserts score 1 with query_end 6 and ref_end 1; the sg kernels therefore do
not compute the claimed procedure. -/
theorem semi_global_claim_described_cex :
    semiGlobalClaimDescribedScore seqX6 seqY11 5 1 identityWithPenaltyScore =
        ((0 : Int) : WithBot Int) ∧
      (semi_global_alignment_stats seqX6 seqY11 5 1 identityWithPenaltyScore).score = 1 ∧
      (semi_global_alignment_stats seqX6 seqY11 5 1 identityWithPenaltyScore).query_end = 6 ∧
      (semi_global_alignment_stats seqX6 seqY11 5 1 identityWithPenaltyScore).ref_end = 1 ∧
      semiGlobalClaimDescribedScore seqX6 seqY11 5 1 identityWithPenaltyScore ≠
        semi_global_alignment_score seqX6 seqY11 5 1 identityWithPenaltyScore :=
  ⟨by decide, by decide, by decide, by decide, by decide⟩

/-- C1 amended: the semi-global operations compute the semi-global mode with
leading and trailing gaps free in both the query and the reference (row 0 and
column 0 free), and the returned score is the maximum cell_best value over
the last row and the last column of the grid; this boundary policy reproduces
every sg assertion of the repository's test_semiglobal_stats. -/
theorem semi_global_amended :
    (∀ (q r : List Char) (o e : Int) (subf : Char → Char → Int),
      semi_global_alignment_score q r o e subf =
        ((List.range r.length).map
            (fun j => (bestTrk (getCellD (table (sgCfg subf o e) q r) q.length (j + 1))).v) ++
          (List.range q.length).map
            (fun i => (bestTrk (getCellD (table (sgCfg subf o e) q r) (i + 1) r.length)).v)).foldr
          max ⊥) ∧
    (semi_global_alignment_stats seqX9 seqY13 5 1 identityWithPenaltyScore).score = 7 ∧
    (semi_global_alignment_stats seqX9 seqY13 5 1 identityWithPenaltyScore).query_end = 9 ∧
    (semi_global_alignment_stats seqX9 seqY13 5 1 identityWithPenaltyScore).ref_end = 13 ∧
    (semi_global_alignment_stats seqX6 seqY11 5 1 identityWithPenaltyScore).score = 1 ∧
    (semi_global_alignment_stats seqX6 seqY11 5 1 identityWithPenaltyScore).query_end = 6 ∧
    (semi_global_alignment_stats seqX6 seqY11 5 1 identityWithPenaltyScore).ref_end = 1 := by
  refine ⟨?_, by decide, by decide, by decide, by decide, by decide, by decide⟩
  intro q r o e subf
  unfold semi_global_alignment_score sgScan
  rw [scanBest_v]
  unfold sgCands
  rw [List.map_append, rowEnds_map_v, colEnds_map_v]

/-! Scan specifications: the optimum scan of every mode lands on a grid cell
with in-range one-based end coordinates. -/

theorem qxCands_mem_row_of (q r : List Char) (o e : Int) (subf : Char → Char → Int) (j : Nat)
    (hj1 : 1 ≤ j) (hj2 : j ≤ r.length) :
    (⟨q.length, j, bestTrk (getCellD (table (qxCfg subf o e) q r) q.length j)⟩ : EndPt) ∈
      qxCands q r o e subf := by
  have h := rowEnds_mem_of q.length (lastRowOf (table (qxCfg subf o e) q r)) j hj1
    (by rw [lastRowOf_length]; omega)
  rw [lastRowOf_getD] at h
  exact h

theorem dxCands_mem_col_of (q r : List Char) (o e : Int) (subf : Char → Char → Int) (i : Nat)
    (hi1 : 1 ≤ i) (hi2 : i ≤ q.length) :
    (⟨i, r.length, bestTrk (getCellD (table (dxCfg subf o e) q r) i r.length)⟩ : EndPt) ∈
      dxCands q r o e subf := by
  have h := colEnds_mem_of r.length (lastColOf (table (dxCfg subf o e) q r)) i hi1
    (by rw [lastColOf_length]; omega)
  rw [lastColOf_getD _ q r i hi1 hi2] at h
  exact h

theorem sgScan_spec (q r : List Char) (o e : Int) (subf : Char → Char → Int)
    (hq : 1 ≤ q.length) (hr : 1 ≤ r.length) :
    1 ≤ (sgScan q r o e subf).qe ∧ (sgScan q r o e subf).qe ≤ q.length ∧
      1 ≤ (sgScan q r o e subf).re ∧ (sgScan q r o e subf).re ≤ r.length ∧
      (sgScan q r o e subf).trk =
        bestTrk (getCellD (table (sgCfg subf o e) q r)
          (sgScan q r o e subf).qe (sgScan q r o e subf).re) := by
  have hne : sgCands q r o e subf ≠ [] :=
    List.ne_nil_of_mem (sgCands_mem_row_of q r o e subf r.length hr (le_refl _))
  exact sgCands_spec q r o e subf hq hr _ (scanBest_mem _ hne)

theorem qxScan_spec (q r : List Char) (o e : Int) (subf : Char → Char → Int)
    (hq : 1 ≤ q.length) (hr : 1 ≤ r.length) :
    1 ≤ (qxScan q r o e subf).qe ∧ (qxScan q r o e subf).qe ≤ q.length ∧
      1 ≤ (qxScan q r o e subf).re ∧ (qxScan q r o e subf).re ≤ r.length ∧
      (qxScan q r o e subf).trk =
        bestTrk (getCellD (table (qxCfg subf o e) q r)
          (qxScan q r o e subf).qe (qxScan q r o e subf).re) := by
  have hne : qxCands q r o e subf ≠ [] :=
    List.ne_nil_of_mem (qxCands_mem_row_of q r o e subf r.length hr (le_refl _))
  exact qxCands_spec q r o e subf hq _ (scanBest_mem _ hne)

theorem dxScan_spec (q r : List Char) (o e : Int) (subf : Char → Char → Int)
    (hq : 1 ≤ q.length) (hr : 1 ≤ r.length) :
    1 ≤ (dxScan q r o e subf).qe ∧ (dxScan q r o e subf).qe ≤ q.length ∧
      1 ≤ (dxScan q r o e subf).re ∧ (dxScan q r o e subf).re ≤ r.length ∧
      (dxScan q r o e subf).trk =
        bestTrk (getCellD (table (dxCfg subf o e) q r)
          (dxScan q r o e subf).qe (dxScan q r o e subf).re) := by
  have hne : dxCands q r o e subf ≠ [] :=
    List.ne_nil_of_mem (dxCands_mem_col_of q r o e subf q.length hq (le_refl _))
  exact dxCands_spec q r o e subf hr _ (scanBest_mem _ hne)

theorem swScan_spec (q r : List Char) (o e : Int) (subf : Char → Char → Int)
    (hq : 1 ≤ q.length) (hr : 1 ≤ r.length) :
    1 ≤ (swScan q r o e subf).qe ∧ (swScan q r o e subf).qe ≤ q.length ∧
      1 ≤ (swScan q r o e subf).re ∧ (swScan q r o e subf).re ≤ r.length ∧
      (swScan q r o e subf).trk =
        bestTrk (getCellD (table (localCfg subf o e) q r)
          (swScan q r o e subf).qe (swScan q r o e subf).re) := by
  have hne : swCands q r o e subf ≠ [] :=
    List.ne_nil_of_mem (swCands_mem_of q r o e subf 1 1 (le_refl _) hq (le_refl _) hr)
  exact swCands_spec q r o e subf _ (scanBest_mem _ hne)

/-- C2: For every alignment producing end coordinates
(semi_global_alignment_stats, semi_global_qx_alignment_stats,
local_alignment_stats, semi_global_traceback, semi_global_dx_traceback) on
non-empty query and reference, the returned query_end and ref_end are
one-based inclusive end coordinates with 1 <= query_end <= query length and
1 <= ref_end <= reference length. -/
theorem end_positions_in_range (q r : List Char) (o e : Int) (subf : Char → Char → Int)
    (hq : 1 ≤ q.length) (hr : 1 ≤ r.length) :
    (1 ≤ (semi_global_alignment_stats q r o e subf).query_end ∧
      (semi_global_alignment_stats q r o e subf).query_end ≤ q.length ∧
      1 ≤ (semi_global_alignment_stats q r o e subf).ref_end ∧
      (semi_global_alignment_stats q r o e subf).ref_end ≤ r.length) ∧
    (1 ≤ (semi_global_qx_alignment_stats q r o e subf).query_end ∧
      (semi_global_qx_alignment_stats q r o e subf).query_end ≤ q.length ∧
      1 ≤ (semi_global_qx_alignment_stats q r o e subf).ref_end ∧
      (semi_global_qx_alignment_stats q r o e subf).ref_end ≤ r.length) ∧
    (1 ≤ (local_alignment_stats q r o e subf).query_end ∧
      (local_alignment_stats q r o e subf).query_end ≤ q.length ∧
      1 ≤ (local_alignment_stats q r o e subf).ref_end ∧
      (local_alignment_stats q r o e subf).ref_end ≤ r.length) ∧
    (1 ≤ (semi_global_traceback_ends q r o e subf).query_end ∧
      (semi_global_traceback_ends q r o e subf).query_end ≤ q.length ∧
      1 ≤ (semi_global_traceback_ends q r o e subf).ref_end ∧
      (semi_global_traceback_ends q r o e subf).ref_end ≤ r.length) ∧
    (1 ≤ (semi_global_dx_traceback_ends q r o e subf).query_end ∧
      (semi_global_dx_traceback_ends q r o e subf).query_end ≤ q.length ∧
      1 ≤ (semi_global_dx_traceback_ends q r o e subf).ref_end ∧
      (semi_global_dx_traceback_ends q r o e subf).ref_end ≤ r.length) := by
  have h1 := sgScan_spec q r o e subf hq hr
  have h2 := qxScan_spec q r o e subf hq hr
  have h3 := swScan_spec q r o e subf hq hr
  have h4 := dxScan_spec q r o e subf hq hr
  exact ⟨⟨h1.1, h1.2.1, h1.2.2.1, h1.2.2.2.1⟩, ⟨h2.1, h2.2.1, h2.2.2.1, h2.2.2.2.1⟩,
    ⟨h3.1, h3.2.1, h3.2.2.1, h3.2.2.2.1⟩, ⟨h1.1, h1.2.1, h1.2.2.1, h1.2.2.2.1⟩,
    ⟨h4.1, h4.2.1, h4.2.2.1, h4.2.2.2.1⟩⟩

/-- Witness for C2 at a concrete non-empty query and reference. -/
theorem end_positions_in_range_witness :
    1 ≤ (['A'] : List Char).length ∧ 1 ≤ (['R'] : List Char).length ∧
      (1 ≤ (semi_global_alignment_stats ['A'] ['R'] 1 1 identityScore).query_end ∧
        (semi_global_alignment_stats ['A'] ['R'] 1 1 identityScore).query_end ≤
          (['A'] : List Char).length ∧
        1 ≤ (semi_global_alignment_stats ['A'] ['R'] 1 1 identityScore).ref_end ∧
        (semi_global_alignment_stats ['A'] ['R'] 1 1 identityScore).ref_end ≤
          (['R'] : List Char).length) ∧
      (1 ≤ (semi_global_qx_alignment_stats ['A'] ['R'] 1 1 identityScore).query_end ∧
        (semi_global_qx_alignment_stats ['A'] ['R'] 1 1 identityScore).query_end ≤
          (['A'] : List Char).length ∧
        1 ≤ (semi_global_qx_alignment_stats ['A'] ['R'] 1 1 identityScore).ref_end ∧
        (semi_global_qx_alignment_stats ['A'] ['R'] 1 1 identityScore).ref_end ≤
          (['R'] : List Char).length) ∧
      (1 ≤ (local_alignment_stats ['A'] ['R'] 1 1 identityScore).query_end ∧
        (local_alignment_stats ['A'] ['R'] 1 1 identityScore).query_end ≤
          (['A'] : List Char).length ∧
        1 ≤ (local_alignment_stats ['A'] ['R'] 1 1 identityScore).ref_end ∧
        (local_alignment_stats ['A'] ['R'] 1 1 identityScore).ref_end ≤
          (['R'] : List Char).length) ∧
      (1 ≤ (semi_global_traceback_ends ['A'] ['R'] 1 1 identityScore).query_end ∧
        (semi_global_traceback_ends ['A'] ['R'] 1 1 identityScore).query_end ≤
          (['A'] : List Char).length ∧
        1 ≤ (semi_global_traceback_ends ['A'] ['R'] 1 1 identityScore).ref_end ∧
        (semi_global_traceback_ends ['A'] ['R'] 1 1 identityScore).ref_end ≤
          (['R'] : List Char).length) ∧
      (1 ≤ (semi_global_dx_traceback_ends ['A'] ['R'] 1 1 identityScore).query_end ∧
        (semi_global_dx_traceback_ends ['A'] ['R'] 1 1 identityScore).query_end ≤
          (['A'] : List Char).length ∧
        1 ≤ (semi_global_dx_traceback_ends ['A'] ['R'] 1 1 identityScore).ref_end ∧
        (semi_global_dx_traceback_ends ['A'] ['R'] 1 1 identityScore).ref_end ≤
          (['R'] : List Char).length) :=
  ⟨by decide, by decide,
    end_positions_in_range ['A'] ['R'] 1 1 identityScore (by decide) (by decide)⟩

/-! Canonical forms of the three tracks produced by the interior recurrence. -/

theorem mkCell_tm (cfg : Cfg) (qc rc : Char) (diag up left : SCell) :
    (mkCell cfg qc rc diag up left).tm =
      if cfg.floor0 ∧
          (bestTrk diag).v + ((cfg.subf qc rc : Int) : WithBot Int) < ((0 : Int) : WithBot Int)
        then zeroTrk
        else ⟨(bestTrk diag).v + ((cfg.subf qc rc : Int) : WithBot Int),
          (bestTrk diag).mat + (if qc = rc then 1 else 0),
          (bestTrk diag).sim + (if 0 < cfg.subf qc rc then 1 else 0),
          (bestTrk diag).len + 1⟩ := rfl

theorem mkCell_tx (cfg : Cfg) (qc rc : Char) (diag up left : SCell) :
    (mkCell cfg qc rc diag up left).tx =
      if up.tm.v + ((-cfg.openC : Int) : WithBot Int) <
          up.tx.v + ((-cfg.extC : Int) : WithBot Int)
        then ⟨up.tx.v + ((-cfg.extC : Int) : WithBot Int), up.tx.mat, up.tx.sim, up.tx.len + 1⟩
        else ⟨up.tm.v + ((-cfg.openC : Int) : WithBot Int), up.tm.mat, up.tm.sim,
          up.tm.len + 1⟩ := rfl

theorem mkCell_ty (cfg : Cfg) (qc rc : Char) (diag up left : SCell) :
    (mkCell cfg qc rc diag up left).ty =
      if left.tm.v + ((-cfg.openC : Int) : WithBot Int) <
          left.ty.v + ((-cfg.extC : Int) : WithBot Int)
        then ⟨left.ty.v + ((-cfg.extC : Int) : WithBot Int), left.ty.mat, left.ty.sim,
          left.ty.len + 1⟩
        else ⟨left.tm.v + ((-cfg.openC : Int) : WithBot Int), left.tm.mat, left.tm.sim,
          left.tm.len + 1⟩ := rfl

theorem mkCell_tx_v (cfg : Cfg) (qc rc : Char) (diag up left : SCell) :
    (mkCell cfg qc rc diag up left).tx.v =
      max (up.tm.v + ((-cfg.openC : Int) : WithBot Int))
        (up.tx.v + ((-cfg.extC : Int) : WithBot Int)) := by
  rw [mkCell_tx]
  split
  · rename_i h
    exact (max_eq_right (le_of_lt h)).symm
  · rename_i h
    exact (max_eq_left (not_lt.mp h)).symm

theorem mkCell_ty_v (cfg : Cfg) (qc rc : Char) (diag up left : SCell) :
    (mkCell cfg qc rc diag up left).ty.v =
      max (left.tm.v + ((-cfg.openC : Int) : WithBot Int))
        (left.ty.v + ((-cfg.extC : Int) : WithBot Int)) := by
  rw [mkCell_ty]
  split
  · rename_i h
    exact (max_eq_right (le_of_lt h)).symm
  · rename_i h
    exact (max_eq_left (not_lt.mp h)).symm

theorem mkCell_tm_v_no_floor (cfg : Cfg) (qc rc : Char) (diag up left : SCell)
    (hfl : cfg.floor0 = false) :
    (mkCell cfg qc rc diag up left).tm.v =
      (bestTrk diag).v + ((cfg.subf qc rc : Int) : WithBot Int) := by
  rw [mkCell_tm, if_neg]
  intro hcontra
  rw [hfl] at hcontra
  exact Bool.false_ne_true hcontra.1

theorem mkCell_tm_v_ge (cfg : Cfg) (qc rc : Char) (diag up left : SCell) :
    (bestTrk diag).v + ((cfg.subf qc rc : Int) : WithBot Int) ≤
      (mkCell cfg qc rc diag up left).tm.v := by
  rw [mkCell_tm]
  split
  · rename_i h
    exact le_of_lt h.2
  · exact le_refl _

/-! Under the parametric identity matrix, over the declared alphabet, exactly
the exact matches score positively, so the two statistics accumulators stay
equal through the whole dynamic program. -/

theorem alphaIdx_inj (a b : Char) (ha : a ∈ alphabet) (hb : b ∈ alphabet)
    (h : alphaIdx a = alphaIdx b) : a = b :=
  (List.indexOf_inj ha hb).mp h

theorem identityScore_increment (a b : Char) (ha : a ∈ alphabet) (hb : b ∈ alphabet) :
    ((if a = b then 1 else 0) : Nat) = (if 0 < identityScore a b then 1 else 0) := by
  unfold identityScore matrix_create
  rcases eq_or_ne a b with h | h
  · subst h
    rw [if_pos rfl, if_pos rfl]
    rfl
  · rw [if_neg h]
    by_cases hidx : alphaIdx a = alphaIdx b
    · exact absurd (alphaIdx_inj a b ha hb hidx) h
    · rw [if_neg hidx]
      norm_num

theorem bestTrk_matSim (c : SCell) (h : matSim c) : (bestTrk c).mat = (bestTrk c).sim := by
  rcases bestTrk_cases c with hc | hc | hc <;> rw [hc]
  · exact h.1
  · exact h.2.1
  · exact h.2.2

theorem mkCell_matSim (cfg : Cfg) (qc rc : Char) (diag up left : SCell)
    (hd : matSim diag) (hu : matSim up) (hl : matSim left)
    (hinc : ((if qc = rc then 1 else 0) : Nat) = (if 0 < cfg.subf qc rc then 1 else 0)) :
    matSim (mkCell cfg qc rc diag up left) := by
  have hbd := bestTrk_matSim diag hd
  refine ⟨?_, ?_, ?_⟩
  · rw [mkCell_tm]
    split
    · rfl
    · dsimp only
      rw [hbd, hinc]
  · rw [mkCell_tx]
    split
    · exact hu.2.1
    · exact hu.1
  · rw [mkCell_ty]
    split
    · exact hl.2.2
    · exact hl.1

theorem boundary_matSim_top (cfg : Cfg) (j : Nat) : matSim (topCell cfg j) := by
  unfold topCell
  split
  · exact ⟨rfl, rfl, rfl⟩
  · exact ⟨rfl, rfl, rfl⟩

theorem boundary_matSim_left (cfg : Cfg) (i : Nat) : matSim (leftCell cfg i) := by
  unfold leftCell
  split
  · exact ⟨rfl, rfl, rfl⟩
  · exact ⟨rfl, rfl, rfl⟩

theorem table_matSim (cfg : Cfg) (q r : List Char) (hsub : cfg.subf = identityScore)
    (hqa : ∀ c ∈ q, c ∈ alphabet) (hra : ∀ c ∈ r, c ∈ alphabet) :
    ∀ i j, i ≤ q.length → j ≤ r.length → matSim (getCellD (table cfg q r) i j) := by
  apply table_ind cfg q r (fun _ _ c => matSim c)
  · exact ⟨rfl, rfl, rfl⟩
  · intro j _; exact boundary_matSim_top cfg (j + 1)
  · intro i _; exact boundary_matSim_left cfg (i + 1)
  · intro i j hi hj hdiag hup hleft
    rw [table_rec cfg q r i j hi hj]
    apply mkCell_matSim cfg _ _ _ _ _ hdiag hup hleft
    rw [hsub]
    apply identityScore_increment
    · apply hqa
      have h := getElem?_eq_some_getD q i 'A' hi
      exact List.getElem?_mem h
    · apply hra
      have h := getElem?_eq_some_getD r j 'A' hj
      exact List.getElem?_mem h

/-- C10: For every stats-returning alignment call
(semi_global_alignment_stats, semi_global_qx_alignment_stats,
local_alignment_stats) on non-empty alphabet-valid sequences with the
parametric Identity matrix (match 1, mismatch 0), the returned num_matches
equals the returned num_positive_subs: under that matrix exactly the exact
matches score positively. -/
theorem identity_matches_eq_positive (q r : List Char) (o e : Int)
    (hq : 1 ≤ q.length) (hr : 1 ≤ r.length)
    (hqa : ∀ c ∈ q, c ∈ alphabet) (hra : ∀ c ∈ r, c ∈ alphabet) :
    (semi_global_alignment_stats q r o e identityScore).num_matches =
      (semi_global_alignment_stats q r o e identityScore).num_positive_subs ∧
    (semi_global_qx_alignment_stats q r o e identityScore).num_matches =
      (semi_global_qx_alignment_stats q r o e identityScore).num_positive_subs ∧
    (local_alignment_stats q r o e identityScore).num_matches =
      (local_alignment_stats q r o e identityScore).num_positive_subs := by
  refine ⟨?_, ?_, ?_⟩
  · have hs := sgScan_spec q r o e identityScore hq hr
    show (sgScan q r o e identityScore).trk.mat = (sgScan q r o e identityScore).trk.sim
    rw [hs.2.2.2.2]
    exact bestTrk_matSim _ (table_matSim (sgCfg identityScore o e) q r rfl hqa hra _ _
      hs.2.1 hs.2.2.2.1)
  · have hs := qxScan_spec q r o e identityScore hq hr
    show (qxScan q r o e identityScore).trk.mat = (qxScan q r o e identityScore).trk.sim
    rw [hs.2.2.2.2]
    exact bestTrk_matSim _ (table_matSim (qxCfg identityScore o e) q r rfl hqa hra _ _
      hs.2.1 hs.2.2.2.1)
  · have hs := swScan_spec q r o e identityScore hq hr
    show (swScan q r o e identityScore).trk.mat = (swScan q r o e identityScore).trk.sim
    rw [hs.2.2.2.2]
    exact bestTrk_matSim _ (table_matSim (localCfg identityScore o e) q r rfl hqa hra _ _
      hs.2.1 hs.2.2.2.1)

/-- Witness for C10 at concrete alphabet-valid sequences. -/
theorem identity_matches_eq_positive_witness :
    1 ≤ (['A', 'R'] : List Char).length ∧ 1 ≤ (['A', 'N'] : List Char).length ∧
      (∀ c ∈ (['A', 'R'] : List Char), c ∈ alphabet) ∧
      (∀ c ∈ (['A', 'N'] : List Char), c ∈ alphabet) ∧
      ((semi_global_alignment_stats ['A', 'R'] ['A', 'N'] 1 1 identityScore).num_matches =
        (semi_global_alignment_stats ['A', 'R'] ['A', 'N'] 1 1 identityScore).num_positive_subs ∧
      (semi_global_qx_alignment_stats ['A', 'R'] ['A', 'N'] 1 1 identityScore).num_matches =
        (semi_global_qx_alignment_stats ['A', 'R'] ['A', 'N'] 1 1
          identityScore).num_positive_subs ∧
      (local_alignment_stats ['A', 'R'] ['A', 'N'] 1 1 identityScore).num_matches =
        (local_alignment_stats ['A', 'R'] ['A', 'N'] 1 1 identityScore).num_positive_subs) :=
  ⟨by decide, by decide, by decide, by decide,
    identity_matches_eq_positive ['A', 'R'] ['A', 'N'] 1 1 (by decide) (by decide)
      (by decide) (by decide)⟩

/-! Pointwise comparison of the three boundary policies: relaxing the
boundary (freeing edges, flooring at zero) can only raise every reachable
track value. -/

theorem gapTrk_v_nonpos (cfg : Cfg) (k : Nat) (ho : 0 ≤ cfg.openC) (he : 0 ≤ cfg.extC)
    (hk : 1 ≤ k) : (gapTrk cfg k).v ≤ ((0 : Int) : WithBot Int) := by
  unfold gapTrk
  show ((-(cfg.openC + ((k : Int) - 1) * cfg.extC) : Int) : WithBot Int) ≤ _
  rw [WithBot.coe_le_coe]
  have h1 : (0 : Int) ≤ (k : Int) - 1 := by
    have : (1 : Int) ≤ (k : Int) := by exact_mod_cast hk
    linarith
  have h2 : (0 : Int) ≤ cfg.openC + ((k : Int) - 1) * cfg.extC :=
    add_nonneg ho (mul_nonneg h1 he)
  linarith

theorem bestTrk_v_mid_bot (t : Trk) : (bestTrk ⟨botTrk, botTrk, t⟩ : Trk).v = t.v := by
  rw [bestTrk_v]
  show max (max ⊥ ⊥) t.v = t.v
  simp

theorem bestTrk_v_x_bot (t : Trk) : (bestTrk ⟨botTrk, t, botTrk⟩ : Trk).v = t.v := by
  rw [bestTrk_v]
  show max (max ⊥ t.v) ⊥ = t.v
  simp

theorem bestTrk_v_free : (bestTrk ⟨zeroTrk, botTrk, botTrk⟩ : Trk).v = ((0 : Int) : WithBot Int) := by
  rw [bestTrk_v]
  show max (max ((0 : Int) : WithBot Int) ⊥) ⊥ = _
  simp

theorem global_le_sg_cells (q r : List Char) (o e : Int) (subf : Char → Char → Int)
    (ho : 0 ≤ o) (he : 0 ≤ e) :
    ∀ i j, i ≤ q.length → j ≤ r.length →
      ((getCellD (table (globalCfg subf o e) q r) i j).tm.v ≤
          (getCellD (table (sgCfg subf o e) q r) i j).tm.v) ∧
        (j = 0 ∨ (getCellD (table (globalCfg subf o e) q r) i j).tx.v ≤
          (getCellD (table (sgCfg subf o e) q r) i j).tx.v) ∧
        (i = 0 ∨ (getCellD (table (globalCfg subf o e) q r) i j).ty.v ≤
          (getCellD (table (sgCfg subf o e) q r) i j).ty.v) ∧
        ((bestTrk (getCellD (table (globalCfg subf o e) q r) i j)).v ≤
          (bestTrk (getCellD (table (sgCfg subf o e) q r) i j)).v) := by
  apply table_ind (globalCfg subf o e) q r (fun i j c =>
    (c.tm.v ≤ (getCellD (table (sgCfg subf o e) q r) i j).tm.v) ∧
    (j = 0 ∨ c.tx.v ≤ (getCellD (table (sgCfg subf o e) q r) i j).tx.v) ∧
    (i = 0 ∨ c.ty.v ≤ (getCellD (table (sgCfg subf o e) q r) i j).ty.v) ∧
    ((bestTrk c).v ≤ (bestTrk (getCellD (table (sgCfg subf o e) q r) i j)).v))
  · rw [table_cell_zero_zero]
    exact ⟨le_refl _, Or.inl rfl, Or.inl rfl, le_refl _⟩
  · intro j hj
    rw [table_cell_top _ q r j hj]
    have hg : topCell (globalCfg subf o e) (j + 1) =
        ⟨botTrk, botTrk, gapTrk (globalCfg subf o e) (j + 1)⟩ := rfl
    have hs : topCell (sgCfg subf o e) (j + 1) = ⟨zeroTrk, botTrk, botTrk⟩ := rfl
    rw [hg, hs]
    refine ⟨bot_le, Or.inr (le_refl _), Or.inl rfl, ?_⟩
    rw [bestTrk_v_mid_bot, bestTrk_v_free]
    exact gapTrk_v_nonpos (globalCfg subf o e) (j + 1) ho he (by omega)
  · intro i hi
    rw [table_cell_left _ q r i hi]
    have hg : leftCell (globalCfg subf o e) (i + 1) =
        ⟨botTrk, gapTrk (globalCfg subf o e) (i + 1), botTrk⟩ := rfl
    have hs : leftCell (sgCfg subf o e) (i + 1) = ⟨zeroTrk, botTrk, botTrk⟩ := rfl
    rw [hg, hs]
    refine ⟨bot_le, Or.inl rfl, Or.inr (le_refl _), ?_⟩
    rw [bestTrk_v_x_bot, bestTrk_v_free]
    exact gapTrk_v_nonpos (globalCfg subf o e) (i + 1) ho he (by omega)
  · intro i j hi hj IH1 IH2 IH3
    rw [table_rec (globalCfg subf o e) q r i j hi hj, table_rec (sgCfg subf o e) q r i j hi hj]
    have htx2 : (getCellD (table (globalCfg subf o e) q r) i (j + 1)).tx.v ≤
        (getCellD (table (sgCfg subf o e) q r) i (j + 1)).tx.v := by
      rcases IH2.2.1 with h | h
      · exact absurd h (Nat.succ_ne_zero j)
      · exact h
    have hty3 : (getCellD (table (globalCfg subf o e) q r) (i + 1) j).ty.v ≤
        (getCellD (table (sgCfg subf o e) q r) (i + 1) j).ty.v := by
      rcases IH3.2.2.1 with h | h
      · exact absurd h (Nat.succ_ne_zero i)
      · exact h
    have htm : (mkCell (globalCfg subf o e) (q.getD i 'A') (r.getD j 'A')
        (getCellD (table (globalCfg subf o e) q r) i j)
        (getCellD (table (globalCfg subf o e) q r) i (j + 1))
        (getCellD (table (globalCfg subf o e) q r) (i + 1) j)).tm.v ≤
        (mkCell (sgCfg subf o e) (q.getD i 'A') (r.getD j 'A')
          (getCellD (table (sgCfg subf o e) q r) i j)
          (getCellD (table (sgCfg subf o e) q r) i (j + 1))
          (getCellD (table (sgCfg subf o e) q r) (i + 1) j)).tm.v := by
      rw [mkCell_tm_v_no_floor _ _ _ _ _ _ rfl, mkCell_tm_v_no_floor _ _ _ _ _ _ rfl]
      exact add_le_add_right IH1.2.2.2 _
    have htx : (mkCell (globalCfg subf o e) (q.getD i 'A') (r.getD j 'A')
        (getCellD (table (globalCfg subf o e) q r) i j)
        (getCellD (table (globalCfg subf o e) q r) i (j + 1))
        (getCellD (table (globalCfg subf o e) q r) (i + 1) j)).tx.v ≤
        (mkCell (sgCfg subf o e) (q.getD i 'A') (r.getD j 'A')
          (getCellD (table (sgCfg subf o e) q r) i j)
          (getCellD (table (sgCfg subf o e) q r) i (j + 1))
          (getCellD (table (sgCfg subf o e) q r) (i + 1) j)).tx.v := by
      rw [mkCell_tx_v, mkCell_tx_v]
      exact max_le_max (add_le_add_right IH2.1 _) (add_le_add_right htx2 _)
    have hty : (mkCell (globalCfg subf o e) (q.getD i 'A') (r.getD j 'A')
        (getCellD (table (globalCfg subf o e) q r) i j)
        (getCellD (table (globalCfg subf o e) q r) i (j + 1))
        (getCellD (table (globalCfg subf o e) q r) (i + 1) j)).ty.v ≤
        (mkCell (sgCfg subf o e) (q.getD i 'A') (r.getD j 'A')
          (getCellD (table (sgCfg subf o e) q r) i j)
          (getCellD (table (sgCfg subf o e) q r) i (j + 1))
          (getCellD (table (sgCfg subf o e) q r) (i + 1) j)).ty.v := by
      rw [mkCell_ty_v, mkCell_ty_v]
      exact max_le_max (add_le_add_right IH3.1 _) (add_le_add_right hty3 _)
    refine ⟨htm, Or.inr htx, Or.inr hty, ?_⟩
    rw [bestTrk_v, bestTrk_v]
    exact max_le_max (max_le_max htm htx) hty

theorem sg_le_local_cells (q r : List Char) (o e : Int) (subf : Char → Char → Int) :
    ∀ i j, i ≤ q.length → j ≤ r.length →
      ((getCellD (table (sgCfg subf o e) q r) i j).tm.v ≤
          (getCellD (table (localCfg subf o e) q r) i j).tm.v) ∧
        ((getCellD (table (sgCfg subf o e) q r) i j).tx.v ≤
          (getCellD (table (localCfg subf o e) q r) i j).tx.v) ∧
        ((getCellD (table (sgCfg subf o e) q r) i j).ty.v ≤
          (getCellD (table (localCfg subf o e) q r) i j).ty.v) ∧
        ((bestTrk (getCellD (table (sgCfg subf o e) q r) i j)).v ≤
          (bestTrk (getCellD (table (localCfg subf o e) q r) i j)).v) := by
  apply table_ind (sgCfg subf o e) q r (fun i j c =>
    (c.tm.v ≤ (getCellD (table (localCfg subf o e) q r) i j).tm.v) ∧
    (c.tx.v ≤ (getCellD (table (localCfg subf o e) q r) i j).tx.v) ∧
    (c.ty.v ≤ (getCellD (table (localCfg subf o e) q r) i j).ty.v) ∧
    ((bestTrk c).v ≤ (bestTrk (getCellD (table (localCfg subf o e) q r) i j)).v))
  · rw [table_cell_zero_zero]
    exact ⟨le_refl _, le_refl _, le_refl _, le_refl _⟩
  · intro j hj
    rw [table_cell_top _ q r j hj]
    exact ⟨le_refl _, le_refl _, le_refl _, le_refl _⟩
  · intro i hi
    rw [table_cell_left _ q r i hi]
    exact ⟨le_refl _, le_refl _, le_refl _, le_refl _⟩
  · intro i j hi hj IH1 IH2 IH3
    rw [table_rec (sgCfg subf o e) q r i j hi hj, table_rec (localCfg subf o e) q r i j hi hj]
    have htm : (mkCell (sgCfg subf o e) (q.getD i 'A') (r.getD j 'A')
        (getCellD (table (sgCfg subf o e) q r) i j)
        (getCellD (table (sgCfg subf o e) q r) i (j + 1))
        (getCellD (table (sgCfg subf o e) q r) (i + 1) j)).tm.v ≤
        (mkCell (localCfg subf o e) (q.getD i 'A') (r.getD j 'A')
          (getCellD (table (localCfg subf o e) q r) i j)
          (getCellD (table (localCfg subf o e) q r) i (j + 1))
          (getCellD (table (localCfg subf o e) q r) (i + 1) j)).tm.v := by
      rw [mkCell_tm_v_no_floor _ _ _ _ _ _ rfl]
      refine le_trans ?_ (mkCell_tm_v_ge _ _ _ _ _ _)
      exact add_le_add_right IH1.2.2.2 _
    have htx : (mkCell (sgCfg subf o e) (q.getD i 'A') (r.getD j 'A')
        (getCellD (table (sgCfg subf o e) q r) i j)
        (getCellD (table (sgCfg subf o e) q r) i (j + 1))
        (getCellD (table (sgCfg subf o e) q r) (i + 1) j)).tx.v ≤
        (mkCell (localCfg subf o e) (q.getD i 'A') (r.getD j 'A')
          (getCellD (table (localCfg subf o e) q r) i j)
          (getCellD (table (localCfg subf o e) q r) i (j + 1))
          (getCellD (table (localCfg subf o e) q r) (i + 1) j)).tx.v := by
      rw [mkCell_tx_v, mkCell_tx_v]
      exact max_le_max (add_le_add_right IH2.1 _) (add_le_add_right IH2.2.1 _)
    have hty : (mkCell (sgCfg subf o e) (q.getD i 'A') (r.getD j 'A')
        (getCellD (table (sgCfg subf o e) q r) i j)
        (getCellD (table (sgCfg subf o e) q r) i (j + 1))
        (getCellD (table (sgCfg subf o e) q r) (i + 1) j)).ty.v ≤
        (mkCell (localCfg subf o e) (q.getD i 'A') (r.getD j 'A')
          (getCellD (table (localCfg subf o e) q r) i j)
          (getCellD (table (localCfg subf o e) q r) i (j + 1))
          (getCellD (table (localCfg subf o e) q r) (i + 1) j)).ty.v := by
      rw [mkCell_ty_v, mkCell_ty_v]
      exact max_le_max (add_le_add_right IH3.1 _) (add_le_add_right IH3.2.2.1 _)
    refine ⟨htm, htx, hty, ?_⟩
    rw [bestTrk_v, bestTrk_v]
    exact max_le_max (max_le_max htm htx) hty

/-- C4: For every pair of non-empty sequences, every substitution function,
and every non-negative gap-open and gap-extend cost, the local alignment
score is at least the semi-global alignment score, which is at least the
global alignment score. -/
theorem mode_relaxation_order (q r : List Char) (o e : Int) (subf : Char → Char → Int)
    (hq : 1 ≤ q.length) (hr : 1 ≤ r.length) (ho : 0 ≤ o) (he : 0 ≤ e) :
    global_alignment_score q r o e subf ≤ semi_global_alignment_score q r o e subf ∧
      semi_global_alignment_score q r o e subf ≤ local_alignment_score q r o e subf := by
  constructor
  · have hcells := global_le_sg_cells q r o e subf ho he q.length r.length (le_refl _)
      (le_refl _)
    have hmem := sgCands_mem_row_of q r o e subf r.length hr (le_refl _)
    have hle := le_scanBest _ _ hmem
    exact le_trans hcells.2.2.2 hle
  · have hs := sgScan_spec q r o e subf hq hr
    have hcells := sg_le_local_cells q r o e subf (sgScan q r o e subf).qe
      (sgScan q r o e subf).re hs.2.1 hs.2.2.2.1
    have hmem := swCands_mem_of q r o e subf (sgScan q r o e subf).qe
      (sgScan q r o e subf).re hs.1 hs.2.1 hs.2.2.1 hs.2.2.2.1
    have hle := le_scanBest _ _ hmem
    show (sgScan q r o e subf).trk.v ≤ (swScan q r o e subf).trk.v
    rw [hs.2.2.2.2]
    exact le_trans hcells.2.2.2 hle

/-- Witness for C4 at a concrete input. -/
theorem mode_relaxation_order_witness :
    1 ≤ (['A', 'R'] : List Char).length ∧ 1 ≤ (['N'] : List Char).length ∧
      (0 : Int) ≤ 1 ∧ (0 : Int) ≤ 1 ∧
      (global_alignment_score ['A', 'R'] ['N'] 1 1 identityWithPenaltyScore ≤
          semi_global_alignment_score ['A', 'R'] ['N'] 1 1 identityWithPenaltyScore ∧
        semi_global_alignment_score ['A', 'R'] ['N'] 1 1 identityWithPenaltyScore ≤
          local_alignment_score ['A', 'R'] ['N'] 1 1 identityWithPenaltyScore) :=
  ⟨by decide, by decide, by decide, by decide,
    mode_relaxation_order ['A', 'R'] ['N'] 1 1 identityWithPenaltyScore (by decide) (by decide)
      (by decide) (by decide)⟩

/-! Bounds on the local grid: with substitution scores at most 1 and
non-negative gap costs, no track at cell (i, j) can exceed min i j, the gap
tracks strictly less on the side they consume. -/

theorem wb_le_trans_coe (v : WithBot Int) (a b : Int) (hv : v ≤ (a : WithBot Int))
    (hab : a ≤ b) : v ≤ (b : WithBot Int) :=
  le_trans hv (WithBot.coe_le_coe.mpr hab)

theorem wb_add_coe_le (v : WithBot Int) (a s b : Int) (hv : v ≤ (a : WithBot Int))
    (hab : a + s ≤ b) : v + (s : WithBot Int) ≤ (b : WithBot Int) := by
  have h1 : v + (s : WithBot Int) ≤ (a : WithBot Int) + (s : WithBot Int) :=
    add_le_add_right hv _
  rw [← WithBot.coe_add] at h1
  exact le_trans h1 (WithBot.coe_le_coe.mpr hab)

theorem identityScore_le_one (a b : Char) : identityScore a b ≤ 1 := by
  unfold identityScore matrix_create
  split
  · exact le_refl _
  · norm_num

theorem identityScore_refl (a : Char) : identityScore a a = 1 := by
  unfold identityScore matrix_create
  rw [if_pos rfl]

theorem cells_bound (cfg : Cfg) (q r : List Char)
    (ho : 0 ≤ cfg.openC) (he : 0 ≤ cfg.extC) (hs1 : ∀ a b, cfg.subf a b ≤ 1) :
    ∀ i j, i ≤ q.length → j ≤ r.length →
      ((getCellD (table cfg q r) i j).tm.v ≤
          (((min i j : Nat) : Int) : WithBot Int)) ∧
        ((getCellD (table cfg q r) i j).tx.v ≤
          ((((i : Nat) : Int) - 1 : Int) : WithBot Int)) ∧
        ((getCellD (table cfg q r) i j).tx.v ≤
          (((j : Nat) : Int) : WithBot Int)) ∧
        ((getCellD (table cfg q r) i j).ty.v ≤
          (((i : Nat) : Int) : WithBot Int)) ∧
        ((getCellD (table cfg q r) i j).ty.v ≤
          ((((j : Nat) : Int) - 1 : Int) : WithBot Int)) := by
  apply table_ind cfg q r (fun i j c =>
    (c.tm.v ≤ (((min i j : Nat) : Int) : WithBot Int)) ∧
    (c.tx.v ≤ ((((i : Nat) : Int) - 1 : Int) : WithBot Int)) ∧
    (c.tx.v ≤ (((j : Nat) : Int) : WithBot Int)) ∧
    (c.ty.v ≤ (((i : Nat) : Int) : WithBot Int)) ∧
    (c.ty.v ≤ ((((j : Nat) : Int) - 1 : Int) : WithBot Int)))
  · exact ⟨WithBot.coe_le_coe.mpr (by norm_num), bot_le, bot_le, bot_le, bot_le⟩
  · intro j hj
    unfold topCell
    split
    · exact ⟨WithBot.coe_le_coe.mpr (by simp), bot_le, bot_le, bot_le, bot_le⟩
    · refine ⟨bot_le, bot_le, bot_le, ?_, ?_⟩
      · show (gapTrk cfg (j + 1)).v ≤ _
        exact wb_le_trans_coe _ 0 _ (gapTrk_v_nonpos cfg (j + 1) ho he (by omega))
          (by norm_num)
      · show (gapTrk cfg (j + 1)).v ≤ _
        exact wb_le_trans_coe _ 0 _ (gapTrk_v_nonpos cfg (j + 1) ho he (by omega))
          (by push_cast; omega)
  · intro i hi
    unfold leftCell
    split
    · exact ⟨WithBot.coe_le_coe.mpr (by simp), bot_le, bot_le, bot_le, bot_le⟩
    · refine ⟨bot_le, ?_, ?_, bot_le, bot_le⟩
      · show (gapTrk cfg (i + 1)).v ≤ _
        exact wb_le_trans_coe _ 0 _ (gapTrk_v_nonpos cfg (i + 1) ho he (by omega))
          (by push_cast; omega)
      · show (gapTrk cfg (i + 1)).v ≤ _
        exact wb_le_trans_coe _ 0 _ (gapTrk_v_nonpos cfg (i + 1) ho he (by omega))
          (by norm_num)
  · intro i j hi hj IH1 IH2 IH3
    obtain ⟨d1, d2, d3, d4, d5⟩ := IH1
    obtain ⟨u1, u2, u3, u4, u5⟩ := IH2
    obtain ⟨l1, l2, l3, l4, l5⟩ := IH3
    rw [table_rec cfg q r i j hi hj]
    have hdtx : (getCellD (table cfg q r) i j).tx.v ≤
        (((min i j : Nat) : Int) : WithBot Int) := by
      rcases le_total i j with h | h
      · rw [Nat.min_eq_left h]
        exact wb_le_trans_coe _ _ _ d2 (by omega)
      · rw [Nat.min_eq_right h]
        exact d3
    have hdty : (getCellD (table cfg q r) i j).ty.v ≤
        (((min i j : Nat) : Int) : WithBot Int) := by
      rcases le_total i j with h | h
      · rw [Nat.min_eq_left h]
        exact d4
      · rw [Nat.min_eq_right h]
        exact wb_le_trans_coe _ _ _ d5 (by omega)
    have hbd : (bestTrk (getCellD (table cfg q r) i j)).v ≤
        (((min i j : Nat) : Int) : WithBot Int) :=
      bestTrk_v_le _ _ d1 hdtx hdty
    refine ⟨?_, ?_, ?_, ?_, ?_⟩
    · rw [mkCell_tm]
      split
      · exact WithBot.coe_le_coe.mpr (by positivity)
      · exact wb_add_coe_le _ _ _ _ hbd
          (by
            have hsle := hs1 (q.getD i 'A') (r.getD j 'A')
            push_cast
            omega)
    · rw [mkCell_tx_v]
      apply max_le
      · exact wb_add_coe_le _ _ _ _ u1
          (by
            have : min i (j + 1) ≤ i := Nat.min_le_left _ _
            push_cast
            omega)
      · exact wb_add_coe_le _ _ _ _ u2 (by push_cast; omega)
    · rw [mkCell_tx_v]
      apply max_le
      · exact wb_add_coe_le _ _ _ _ u1
          (by
            have : min i (j + 1) ≤ j + 1 := Nat.min_le_right _ _
            push_cast
            omega)
      · exact wb_add_coe_le _ _ _ _ u3 (by push_cast; omega)
    · rw [mkCell_ty_v]
      apply max_le
      · exact wb_add_coe_le _ _ _ _ l1
          (by
            have : min (i + 1) j ≤ i + 1 := Nat.min_le_left _ _
            push_cast
            omega)
      · exact wb_add_coe_le _ _ _ _ l4 (by push_cast; omega)
    · rw [mkCell_ty_v]
      apply max_le
      · exact wb_add_coe_le _ _ _ _ l1
          (by
            have : min (i + 1) j ≤ j := Nat.min_le_right _ _
            push_cast
            omega)
      · exact wb_add_coe_le _ _ _ _ l5 (by push_cast; omega)

theorem local_cells_bound (q r : List Char) (o e : Int) (subf : Char → Char → Int)
    (ho : 0 ≤ o) (he : 0 ≤ e) (hs1 : ∀ a b, subf a b ≤ 1) :
    ∀ i j, i ≤ q.length → j ≤ r.length →
      ((getCellD (table (localCfg subf o e) q r) i j).tm.v ≤
          (((min i j : Nat) : Int) : WithBot Int)) ∧
        ((getCellD (table (localCfg subf o e) q r) i j).tx.v ≤
          ((((i : Nat) : Int) - 1 : Int) : WithBot Int)) ∧
        ((getCellD (table (localCfg subf o e) q r) i j).tx.v ≤
          (((j : Nat) : Int) : WithBot Int)) ∧
        ((getCellD (table (localCfg subf o e) q r) i j).ty.v ≤
          (((i : Nat) : Int) : WithBot Int)) ∧
        ((getCellD (table (localCfg subf o e) q r) i j).ty.v ≤
          ((((j : Nat) : Int) - 1 : Int) : WithBot Int)) :=
  cells_bound (localCfg subf o e) q r ho he hs1

theorem local_bestV_le (q r : List Char) (o e : Int) (subf : Char → Char → Int)
    (ho : 0 ≤ o) (he : 0 ≤ e) (hs1 : ∀ a b, subf a b ≤ 1) (i j : Nat)
    (hi : i ≤ q.length) (hj : j ≤ r.length) :
    (bestTrk (getCellD (table (localCfg subf o e) q r) i j)).v ≤
      (((min i j : Nat) : Int) : WithBot Int) := by
  obtain ⟨d1, d2, d3, d4, d5⟩ := local_cells_bound q r o e subf ho he hs1 i j hi hj
  apply bestTrk_v_le _ _ d1
  · rcases le_total i j with h | h
    · rw [Nat.min_eq_left h]
      exact wb_le_trans_coe _ _ _ d2 (by omega)
    · rw [Nat.min_eq_right h]
      exact d3
  · rcases le_total i j with h | h
    · rw [Nat.min_eq_left h]
      exact d4
    · rw [Nat.min_eq_right h]
      exact wb_le_trans_coe _ _ _ d5 (by omega)

/-- Along the main diagonal of a self-alignment under the identity matrix,
the substitution track holds score i with i matches over i columns. -/
theorem local_diag_exact (s : List Char) (o e : Int) (ho : 0 ≤ o) (he : 0 ≤ e) :
    ∀ i, i ≤ s.length →
      (getCellD (table (localCfg identityScore o e) s s) i i).tm =
        ⟨(((i : Nat) : Int) : WithBot Int), i, i, i⟩ := by
  intro i
  induction i with
  | zero =>
      intro _
      rw [table_cell_zero_zero]
      show zeroTrk = _
      unfold zeroTrk
      norm_num
  | succ i ih =>
      intro hle
      have hi : i < s.length := by omega
      obtain ⟨d1, d2, d3, d4, d5⟩ :=
        local_cells_bound s s o e identityScore ho he identityScore_le_one i i (by omega)
          (by omega)
      have hdiag := ih (by omega)
      have htm_v : (getCellD (table (localCfg identityScore o e) s s) i i).tm.v =
          (((i : Nat) : Int) : WithBot Int) := by rw [hdiag]
      have htx_le : (getCellD (table (localCfg identityScore o e) s s) i i).tx.v ≤
          (getCellD (table (localCfg identityScore o e) s s) i i).tm.v := by
        rw [htm_v]
        exact wb_le_trans_coe _ _ _ d2 (by omega)
      have hty_le : (getCellD (table (localCfg identityScore o e) s s) i i).ty.v ≤
          (getCellD (table (localCfg identityScore o e) s s) i i).tm.v := by
        rw [htm_v]
        exact wb_le_trans_coe _ _ _ d5 (by omega)
      have hbest : bestTrk (getCellD (table (localCfg identityScore o e) s s) i i) =
          (getCellD (table (localCfg identityScore o e) s s) i i).tm :=
        bestTrk_eq_tm _ htx_le hty_le
      rw [table_rec (localCfg identityScore o e) s s i i hi hi, mkCell_tm, hbest, hdiag]
      have hsc : (localCfg identityScore o e).subf (s.getD i 'A') (s.getD i 'A') = 1 :=
        identityScore_refl _
      rw [if_neg ?hfl]
      case hfl =>
        intro hcontra
        have h2 := hcontra.2
        rw [hsc] at h2
        show False
        have h3 : ((((i : Nat) : Int) + 1 : Int) : WithBot Int) < (((0 : Int)) : WithBot Int) := by
          rw [WithBot.coe_add] at *
          exact h2
        rw [WithBot.coe_lt_coe] at h3
        omega
      rw [hsc]
      have hv : ((((i : Nat) : Int) : WithBot Int) + ((1 : Int) : WithBot Int)) =
          ((((i + 1 : Nat) : Int) : Int) : WithBot Int) := by
        rw [← WithBot.coe_add]
        norm_num
      show Trk.mk _ _ _ _ = Trk.mk _ _ _ _
      rw [hv]
      norm_num

/-- C3: Aligning a non-empty sequence against itself with the parametric
identity matrix (match 1, mismatch 0) and any non-negative gap costs yields
local-alignment statistics with score, num_matches and align_length all
equal to the sequence length and query_end = ref_end = length. -/
theorem local_self_alignment (s : List Char) (o e : Int) (hs : 1 ≤ s.length)
    (ho : 0 ≤ o) (he : 0 ≤ e) :
    (local_alignment_stats s s o e identityScore).score = (s.length : Int) ∧
      (local_alignment_stats s s o e identityScore).num_matches = s.length ∧
      (local_alignment_stats s s o e identityScore).align_length = s.length ∧
      (local_alignment_stats s s o e identityScore).query_end = s.length ∧
      (local_alignment_stats s s o e identityScore).ref_end = s.length := by
  obtain ⟨hqe1, hqe2, hre1, hre2, htrk⟩ := swScan_spec s s o e identityScore hs hs
  have hdiagn := local_diag_exact s o e ho he s.length (le_refl _)
  obtain ⟨n1, n2, n3, n4, n5⟩ :=
    local_cells_bound s s o e identityScore ho he identityScore_le_one s.length s.length
      (le_refl _) (le_refl _)
  have htmn_v : (getCellD (table (localCfg identityScore o e) s s) s.length s.length).tm.v =
      (((s.length : Nat) : Int) : WithBot Int) := by rw [hdiagn]
  have hbestn : bestTrk (getCellD (table (localCfg identityScore o e) s s) s.length s.length) =
      (getCellD (table (localCfg identityScore o e) s s) s.length s.length).tm := by
    apply bestTrk_eq_tm
    · rw [htmn_v]
      exact wb_le_trans_coe _ _ _ n2 (by omega)
    · rw [htmn_v]
      exact wb_le_trans_coe _ _ _ n5 (by omega)
  have hvn : (bestTrk (getCellD (table (localCfg identityScore o e) s s) s.length
      s.length)).v = (((s.length : Nat) : Int) : WithBot Int) := by
    rw [hbestn, htmn_v]
  have hmemn := swCands_mem_of s s o e identityScore s.length s.length hs (le_refl _) hs
    (le_refl _)
  have hlow := le_scanBest _ _ hmemn
  rw [show (⟨s.length, s.length,
      bestTrk (getCellD (table (localCfg identityScore o e) s s) s.length s.length)⟩ :
        EndPt).trk = bestTrk (getCellD (table (localCfg identityScore o e) s s) s.length
        s.length) from rfl, hvn] at hlow
  have hup : (swScan s s o e identityScore).trk.v ≤
      (((min (swScan s s o e identityScore).qe (swScan s s o e identityScore).re : Nat) :
        Int) : WithBot Int) := by
    rw [htrk]
    exact local_bestV_le s s o e identityScore ho he identityScore_le_one _ _ hqe2 hre2
  have hscan_v : (swScan s s o e identityScore).trk.v =
      (((s.length : Nat) : Int) : WithBot Int) := by
    apply le_antisymm
    · apply le_trans hup
      apply WithBot.coe_le_coe.mpr
      have : min (swScan s s o e identityScore).qe (swScan s s o e identityScore).re ≤
          s.length := le_trans (Nat.min_le_left _ _) hqe2
      exact_mod_cast this
    · exact hlow
  have hminn : s.length ≤ min (swScan s s o e identityScore).qe
      (swScan s s o e identityScore).re := by
    have h1 : (((s.length : Nat) : Int) : WithBot Int) ≤
        (((min (swScan s s o e identityScore).qe (swScan s s o e identityScore).re : Nat) :
          Int) : WithBot Int) := by
      rw [← hscan_v]
      exact hup
    rw [WithBot.coe_le_coe] at h1
    exact_mod_cast h1
  have hqe : (swScan s s o e identityScore).qe = s.length := by omega
  have hre : (swScan s s o e identityScore).re = s.length := by omega
  have htrk_n : (swScan s s o e identityScore).trk =
      (⟨(((s.length : Nat) : Int) : WithBot Int), s.length, s.length, s.length⟩ : Trk) := by
    rw [htrk, hqe, hre, hbestn, hdiagn]
  refine ⟨?_, ?_, ?_, ?_, ?_⟩
  · show (swScan s s o e identityScore).trk.v.unbot' 0 = (s.length : Int)
    rw [htrk_n]
    rfl
  · show (swScan s s o e identityScore).trk.mat = s.length
    rw [htrk_n]
  · show (swScan s s o e identityScore).trk.len = s.length
    rw [htrk_n]
  · exact hqe
  · exact hre

/-- Witness for C3 at a concrete non-empty sequence. -/
theorem local_self_alignment_witness :
    1 ≤ (['A', 'R'] : List Char).length ∧ (0 : Int) ≤ 1 ∧ (0 : Int) ≤ 1 ∧
      ((local_alignment_stats ['A', 'R'] ['A', 'R'] 1 1 identityScore).score =
          ((['A', 'R'] : List Char).length : Int) ∧
        (local_alignment_stats ['A', 'R'] ['A', 'R'] 1 1 identityScore).num_matches =
          (['A', 'R'] : List Char).length ∧
        (local_alignment_stats ['A', 'R'] ['A', 'R'] 1 1 identityScore).align_length =
          (['A', 'R'] : List Char).length ∧
        (local_alignment_stats ['A', 'R'] ['A', 'R'] 1 1 identityScore).query_end =
          (['A', 'R'] : List Char).length ∧
        (local_alignment_stats ['A', 'R'] ['A', 'R'] 1 1 identityScore).ref_end =
          (['A', 'R'] : List Char).length) :=
  ⟨by decide, by decide, by decide,
    local_self_alignment ['A', 'R'] 1 1 (by decide) (by decide) (by decide)⟩

/-! A single substitution under an identity-style matrix: exact effect on the
global score. -/

theorem matrix_create_le_one (μ : Int) (hμ : μ ≤ 1) (a b : Char) :
    matrix_create 1 μ a b ≤ 1 := by
  unfold matrix_create
  split
  · exact le_refl _
  · exact hμ

theorem matrix_create_refl (μ : Int) (a : Char) : matrix_create 1 μ a a = 1 := by
  unfold matrix_create
  rw [if_pos rfl]

theorem wb_coe_le_add (v : WithBot Int) (a s b : Int) (hv : (a : WithBot Int) ≤ v)
    (hab : b ≤ a + s) : (b : WithBot Int) ≤ v + (s : WithBot Int) := by
  have h1 : ((a + s : Int) : WithBot Int) ≤ v + (s : WithBot Int) := by
    rw [WithBot.coe_add]
    exact add_le_add_right hv _
  exact le_trans (WithBot.coe_le_coe.mpr hab) h1

theorem gapTrk_v_le_neg_open (cfg : Cfg) (m : Nat) (he : 0 ≤ cfg.extC) (hm : 1 ≤ m) :
    (gapTrk cfg m).v ≤ ((-cfg.openC : Int) : WithBot Int) := by
  unfold gapTrk
  show ((-(cfg.openC + ((m : Int) - 1) * cfg.extC) : Int) : WithBot Int) ≤ _
  rw [WithBot.coe_le_coe]
  have h1 : (0 : Int) ≤ (m : Int) - 1 := by
    have : (1 : Int) ≤ (m : Int) := by exact_mod_cast hm
    linarith
  have h2 : (0 : Int) ≤ ((m : Int) - 1) * cfg.extC := mul_nonneg h1 he
  linarith

theorem set_getD_self (s : List Char) (k : Nat) (c : Char) (hk : k < s.length) :
    (s.set k c).getD k 'A' = c :=
  getD_of_getElem? _ _ _ _ (List.getElem?_set_self hk)

theorem set_getD_ne (s : List Char) (k j : Nat) (c : Char) (h : k ≠ j) :
    (s.set k c).getD j 'A' = s.getD j 'A' := by
  rw [List.getD_eq_getElem?_getD, List.getElem?_set_ne h, ← List.getD_eq_getElem?_getD]

/-- Lower bound along the main diagonal of the global grid by any cost
function dominated by the substitution scores encountered there. -/
theorem global_diag_lower (q r : List Char) (o e : Int) (subf : Char → Char → Int)
    (L : Nat → Int) (hL0 : L 0 ≤ 0)
    (hstep : ∀ i, i < q.length → i < r.length →
      L (i + 1) ≤ L i + subf (q.getD i 'A') (r.getD i 'A')) :
    ∀ i, i ≤ q.length → i ≤ r.length →
      ((L i : Int) : WithBot Int) ≤
        (getCellD (table (globalCfg subf o e) q r) i i).tm.v := by
  intro i
  induction i with
  | zero =>
      intro _ _
      rw [table_cell_zero_zero]
      show ((L 0 : Int) : WithBot Int) ≤ ((0 : Int) : WithBot Int)
      exact WithBot.coe_le_coe.mpr hL0
  | succ i ih =>
      intro h1 h2
      rw [table_rec (globalCfg subf o e) q r i i (by omega) (by omega),
        mkCell_tm_v_no_floor _ _ _ _ _ _ rfl]
      have hih := ih (by omega) (by omega)
      have hbd := le_trans hih (tm_v_le_bestTrk _)
      exact wb_coe_le_add _ (L i) _ _ hbd (hstep i (by omega) (by omega))

/-- C5 counterexample: take s = AB, replace position 1 by the non-matching
character B (reference BB), use the identity-with-penalty matrix (match 1,
mismatch -1) and gap costs 0/0.  The claim predicts a drop of exactly
match - mismatch = 2, i.e. score 0, but the global score only drops
from 2 to 1: with free gaps the shifted alignment recovers a match. -/
theorem single_substitution_cex :
    global_alignment_score ['A', 'B'] ['A', 'B'] 0 0 identityWithPenaltyScore =
        ((2 : Int) : WithBot Int) ∧
      (['A', 'B'] : List Char).set 0 'B' = ['B', 'B'] ∧
      ('B' : Char) ≠ 'A' ∧
      global_alignment_score ['A', 'B'] ['B', 'B'] 0 0 identityWithPenaltyScore =
        ((1 : Int) : WithBot Int) ∧
      global_alignment_score ['A', 'B'] ['B', 'B'] 0 0 identityWithPenaltyScore ≠
        ((0 : Int) : WithBot Int) :=
  ⟨by decide, by decide, by decide, by decide, by decide⟩

/-- Region bounds for the global grid of s against s with position k
replaced: on the diagonal past the substitution every track loses at least
the mismatch deficit, off the diagonal at least one opened gap run, a
mid-gap track both runs. -/
theorem global_sub_cells_bound (s : List Char) (k : Nat) (c : Char) (o e μ : Int)
    (hk : k < s.length) (hμ1 : μ ≤ 1) (hμ2 : -(2 * o) ≤ μ) (ho : 0 ≤ o) (he : 0 ≤ e)
    (hne : alphaIdx (s.getD k 'A') ≠ alphaIdx c) :
    ∀ i j, i ≤ s.length → j ≤ (s.set k c).length →
      ((getCellD (table (globalCfg (matrix_create 1 μ) o e) s (s.set k c)) i j).tm.v ≤
          (((if i = j then (if k + 1 ≤ i then ((i : Nat) : Int) - 1 + μ else ((i : Nat) : Int))
            else ((min i j : Nat) : Int) - o) : Int) : WithBot Int)) ∧
        ((getCellD (table (globalCfg (matrix_create 1 μ) o e) s (s.set k c)) i j).tx.v ≤
          (((if i < j then ((i : Nat) : Int) - 2 * o
            else if i = j then ((i : Nat) : Int) - 1 - 2 * o
            else ((j : Nat) : Int) - o) : Int) : WithBot Int)) ∧
        ((getCellD (table (globalCfg (matrix_create 1 μ) o e) s (s.set k c)) i j).ty.v ≤
          (((if j < i then ((j : Nat) : Int) - 2 * o
            else if i = j then ((i : Nat) : Int) - 1 - 2 * o
            else ((i : Nat) : Int) - o) : Int) : WithBot Int)) := by
  apply table_ind (globalCfg (matrix_create 1 μ) o e) s (s.set k c) (fun i j cell =>
    (cell.tm.v ≤
      (((if i = j then (if k + 1 ≤ i then ((i : Nat) : Int) - 1 + μ else ((i : Nat) : Int))
        else ((min i j : Nat) : Int) - o) : Int) : WithBot Int)) ∧
    (cell.tx.v ≤
      (((if i < j then ((i : Nat) : Int) - 2 * o
        else if i = j then ((i : Nat) : Int) - 1 - 2 * o
        else ((j : Nat) : Int) - o) : Int) : WithBot Int)) ∧
    (cell.ty.v ≤
      (((if j < i then ((j : Nat) : Int) - 2 * o
        else if i = j then ((i : Nat) : Int) - 1 - 2 * o
        else ((i : Nat) : Int) - o) : Int) : WithBot Int)))
  · refine ⟨?_, bot_le, bot_le⟩
    show ((0 : Int) : WithBot Int) ≤ _
    apply WithBot.coe_le_coe.mpr
    split_ifs <;> omega
  · intro j hj
    have hcell : topCell (globalCfg (matrix_create 1 μ) o e) (j + 1) =
        ⟨botTrk, botTrk, gapTrk (globalCfg (matrix_create 1 μ) o e) (j + 1)⟩ := rfl
    rw [hcell]
    refine ⟨bot_le, bot_le, ?_⟩
    show (gapTrk (globalCfg (matrix_create 1 μ) o e) (j + 1)).v ≤ _
    apply wb_le_trans_coe _ (-o) _
      (gapTrk_v_le_neg_open (globalCfg (matrix_create 1 μ) o e) (j + 1) he (by omega))
    split_ifs <;> first | contradiction | omega
  · intro i hi
    have hcell : leftCell (globalCfg (matrix_create 1 μ) o e) (i + 1) =
        ⟨botTrk, gapTrk (globalCfg (matrix_create 1 μ) o e) (i + 1), botTrk⟩ := rfl
    rw [hcell]
    refine ⟨bot_le, ?_, bot_le⟩
    show (gapTrk (globalCfg (matrix_create 1 μ) o e) (i + 1)).v ≤ _
    apply wb_le_trans_coe _ (-o) _
      (gapTrk_v_le_neg_open (globalCfg (matrix_create 1 μ) o e) (i + 1) he (by omega))
    split_ifs <;> first | contradiction | omega
  · intro i j hi hj IH1 IH2 IH3
    obtain ⟨d1, d2, d3⟩ := IH1
    obtain ⟨u1, u2, u3⟩ := IH2
    obtain ⟨l1, l2, l3⟩ := IH3
    rw [table_rec (globalCfg (matrix_create 1 μ) o e) s (s.set k c) i j hi hj]
    have hoc : (globalCfg (matrix_create 1 μ) o e).openC = o := rfl
    have hec : (globalCfg (matrix_create 1 μ) o e).extC = e := rfl
    refine ⟨?_, ?_, ?_⟩
    · rw [mkCell_tm_v_no_floor _ _ _ _ _ _ rfl]
      have hbd : (bestTrk (getCellD (table (globalCfg (matrix_create 1 μ) o e) s
          (s.set k c)) i j)).v ≤
          (((max (if i = j then (if k + 1 ≤ i then ((i : Nat) : Int) - 1 + μ
              else ((i : Nat) : Int)) else ((min i j : Nat) : Int) - o)
            (max (if i < j then ((i : Nat) : Int) - 2 * o
              else if i = j then ((i : Nat) : Int) - 1 - 2 * o
              else ((j : Nat) : Int) - o)
              (if j < i then ((j : Nat) : Int) - 2 * o
              else if i = j then ((i : Nat) : Int) - 1 - 2 * o
              else ((i : Nat) : Int) - o))) : Int) : WithBot Int) := by
        apply bestTrk_v_le
        · exact wb_le_trans_coe _ _ _ d1 (le_max_left _ _)
        · exact wb_le_trans_coe _ _ _ d2 (le_trans (le_max_left _ _) (le_max_right _ _))
        · exact wb_le_trans_coe _ _ _ d3 (le_trans (le_max_right _ _) (le_max_right _ _))
      have hsub : (globalCfg (matrix_create 1 μ) o e).subf = matrix_create 1 μ := rfl
      by_cases hik : i = k ∧ j = k
      · have hseq : (globalCfg (matrix_create 1 μ) o e).subf (s.getD i 'A')
            ((s.set k c).getD j 'A') = μ := by
          rw [hsub, hik.1, hik.2, set_getD_self s k c hk]
          unfold matrix_create
          rw [if_neg hne]
        apply wb_add_coe_le _ _ _ _ hbd
        rw [hseq]
        obtain ⟨hik1, hik2⟩ := hik
        subst hik1
        subst hik2
        split_ifs <;> omega
      · have hsle : (globalCfg (matrix_create 1 μ) o e).subf (s.getD i 'A')
            ((s.set k c).getD j 'A') ≤ 1 := matrix_create_le_one μ hμ1 _ _
        apply wb_add_coe_le _ _ _ _ hbd
        rcases not_and_or.mp hik with hne' | hne' <;> split_ifs <;> omega
    · rw [mkCell_tx_v, hoc, hec]
      apply max_le
      · exact wb_add_coe_le _ _ _ _ u1 (by split_ifs <;> omega)
      · exact wb_add_coe_le _ _ _ _ u2 (by split_ifs <;> omega)
    · rw [mkCell_ty_v, hoc, hec]
      apply max_le
      · exact wb_add_coe_le _ _ _ _ l1 (by split_ifs <;> omega)
      · exact wb_add_coe_le _ _ _ _ l3 (by split_ifs <;> omega)

theorem bestV_le_min (cfg : Cfg) (q r : List Char)
    (ho : 0 ≤ cfg.openC) (he : 0 ≤ cfg.extC) (hs1 : ∀ a b, cfg.subf a b ≤ 1) (i j : Nat)
    (hi : i ≤ q.length) (hj : j ≤ r.length) :
    (bestTrk (getCellD (table cfg q r) i j)).v ≤ (((min i j : Nat) : Int) : WithBot Int) := by
  obtain ⟨d1, d2, d3, d4, d5⟩ := cells_bound cfg q r ho he hs1 i j hi hj
  apply bestTrk_v_le _ _ d1
  · rcases le_total i j with h | h
    · rw [Nat.min_eq_left h]
      exact wb_le_trans_coe _ _ _ d2 (by omega)
    · rw [Nat.min_eq_right h]
      exact d3
  · rcases le_total i j with h | h
    · rw [Nat.min_eq_left h]
      exact d4
    · rw [Nat.min_eq_right h]
      exact wb_le_trans_coe _ _ _ d5 (by omega)

/-- C5 amended: for a non-empty sequence under an identity-style matrix
(match 1, mismatch μ < 1) and non-negative gap costs, replacing exactly one
character of an otherwise-identical reference with a non-matching character
strictly decreases the global alignment score by exactly
match - mismatch = 1 - μ, provided the mismatch deficit does not exceed the
cost of opening two gap runs (-(2 open) ≤ μ); without that proviso a shifted,
gap-using alignment can recover part of the loss, as the counterexample
shows. -/
theorem single_substitution_amended (s : List Char) (k : Nat) (c : Char) (o e μ : Int)
    (hk : k < s.length) (hμ1 : μ < 1) (hμ2 : -(2 * o) ≤ μ) (ho : 0 ≤ o) (he : 0 ≤ e)
    (hne : alphaIdx (s.getD k 'A') ≠ alphaIdx c) :
    global_alignment_score s s o e (matrix_create 1 μ) =
        (((s.length : Nat) : Int) : WithBot Int) ∧
      global_alignment_score s (s.set k c) o e (matrix_create 1 μ) =
        (((((s.length : Nat) : Int) - 1 + μ : Int)) : WithBot Int) ∧
      ((((s.length : Nat) : Int) - 1 + μ : Int)) < (((s.length : Nat) : Int)) := by
  have hμ1' : μ ≤ 1 := le_of_lt hμ1
  refine ⟨?_, ?_, by omega⟩
  · apply le_antisymm
    · show (bestTrk (getCellD (table (globalCfg (matrix_create 1 μ) o e) s s)
        s.length s.length)).v ≤ _
      have h := bestV_le_min (globalCfg (matrix_create 1 μ) o e) s s ho he
        (matrix_create_le_one μ hμ1') s.length s.length (le_refl _) (le_refl _)
      rw [Nat.min_self] at h
      exact h
    · have h := global_diag_lower s s o e (matrix_create 1 μ) (fun i => ((i : Nat) : Int))
        (by norm_num)
        (fun i hi1 hi2 => by rw [matrix_create_refl]; push_cast; omega)
        s.length (le_refl _) (le_refl _)
      exact le_trans h (tm_v_le_bestTrk _)
  · have hlen : (s.set k c).length = s.length := List.length_set s k c
    apply le_antisymm
    · show (bestTrk (getCellD (table (globalCfg (matrix_create 1 μ) o e) s (s.set k c))
        s.length (s.set k c).length)).v ≤ _
      rw [hlen]
      obtain ⟨b1, b2, b3⟩ := global_sub_cells_bound s k c o e μ hk hμ1' hμ2 ho he hne
        s.length s.length (le_refl _) (by rw [hlen])
      apply bestTrk_v_le
      · exact wb_le_trans_coe _ _ _ b1 (by split_ifs <;> first | contradiction | omega)
      · exact wb_le_trans_coe _ _ _ b2 (by split_ifs <;> first | contradiction | omega)
      · exact wb_le_trans_coe _ _ _ b3 (by split_ifs <;> first | contradiction | omega)
    · have hL := global_diag_lower s (s.set k c) o e (matrix_create 1 μ)
        (fun i => if k + 1 ≤ i then ((i : Nat) : Int) - 1 + μ else ((i : Nat) : Int))
        (by dsimp only; rw [if_neg (by omega)]; norm_num)
        (fun i hi1 hi2 => by
          by_cases hik : i = k
          · subst hik
            rw [set_getD_self s i c (by omega)]
            have hsc : matrix_create 1 μ (s.getD i 'A') c = μ := by
              unfold matrix_create
              rw [if_neg hne]
            rw [hsc]
            dsimp only
            split_ifs <;> push_cast <;> omega
          · rw [set_getD_ne s k i c (Ne.symm hik), matrix_create_refl]
            dsimp only
            split_ifs <;> push_cast <;> omega)
        s.length (le_refl _) (by rw [hlen])
      have hL' : (((if k + 1 ≤ s.length then ((s.length : Nat) : Int) - 1 + μ
          else ((s.length : Nat) : Int)) : Int) : WithBot Int) ≤
          (getCellD (table (globalCfg (matrix_create 1 μ) o e) s (s.set k c))
            s.length s.length).tm.v := hL
      rw [if_pos (by omega)] at hL'
      show _ ≤ (bestTrk (getCellD (table (globalCfg (matrix_create 1 μ) o e) s (s.set k c))
        s.length (s.set k c).length)).v
      rw [hlen]
      exact le_trans hL' (tm_v_le_bestTrk _)

/-- Witness for C5 amended at a concrete input: s = AB, position 1 replaced
by N, gap costs 1/1, identity-with-penalty scores. -/
theorem single_substitution_amended_witness :
    (0 < (['A', 'B'] : List Char).length) ∧ ((-1 : Int) < 1) ∧
      (-(2 * (1 : Int)) ≤ -1) ∧ ((0 : Int) ≤ 1) ∧
      alphaIdx ((['A', 'B'] : List Char).getD 0 'A') ≠ alphaIdx 'N' ∧
      (global_alignment_score ['A', 'B'] ['A', 'B'] 1 1 (matrix_create 1 (-1)) =
          ((((['A', 'B'] : List Char).length : Nat) : Int) : WithBot Int) ∧
        global_alignment_score ['A', 'B'] ((['A', 'B'] : List Char).set 0 'N') 1 1
            (matrix_create 1 (-1)) =
          ((((((['A', 'B'] : List Char).length : Nat) : Int) - 1 + (-1) : Int)) : WithBot Int) ∧
        ((((((['A', 'B'] : List Char).length : Nat) : Int) - 1 + (-1) : Int)) <
          ((((['A', 'B'] : List Char).length : Nat) : Int)))) :=
  ⟨by decide, by decide, by decide, by decide, by decide,
    single_substitution_amended ['A', 'B'] 0 'N' 1 1 (-1) (by decide) (by decide) (by decide)
      (by decide) (by decide) (by decide)⟩

end PSail
